import Mathlib

/-!
Verification development for the Normalization & Deduplication Engine of the
calendar-goggles repository (src/lib/normalize.py).

The Python source is shallowly embedded: every function below is translated
from the corresponding function in src/lib/normalize.py.  Strings are Lean
strings (Python `str.lower`/`str.strip` are modelled on their ASCII behaviour,
which is exhaustive for the repertoire the engine manipulates), numbers that
Python holds as `float` are modelled as exact rationals (see `pyRound1` for
the one place where binary floating point could diverge), and a Python
expression that can raise is modelled in the `Except Unit` monad.

Regular-expression searches are embedded as explicit leftmost scans.  Each
scanner is derived from its pattern by noting that every pattern used in the
source is a sequence of maximal character-class runs and literals for which
backtracking can never produce a match that the greedy scan misses (each run's
character class is disjoint from the first character the following pattern
element can accept), so `re.search` is exactly "first start position at which
the greedy component-by-component scan succeeds".
-/

set_option maxRecDepth 8000

deriving instance DecidableEq for Except

namespace CalendarGoggles

/-! ### Python scalar values

The raw values reaching the field parsers are strings, numbers or booleans;
`RawVal` models the ones the pipeline can see, `pyTruthy` models Python
truthiness and `pyStr` models `str(...)`. -/

inductive RawVal : Type
  | vStr (s : String)
  | vInt (n : ℤ)
  | vBool (b : Bool)
  deriving DecidableEq, Repr

def pyTruthy : RawVal → Bool
  | .vStr s => s ≠ ""
  | .vInt n => n ≠ 0
  | .vBool b => b

def pyStr : RawVal → String
  | .vStr s => s
  | .vInt n => toString n
  | .vBool b => if b then "True" else "False"

/-- Python `x or y` over optional raw values: `y` when `x` is absent or falsy. -/
def pyOrV (a b : Option RawVal) : Option RawVal :=
  match a with
  | some v => if pyTruthy v then a else b
  | none => b

/-- Python `x or y` over optional strings (empty string is falsy). -/
def pyOrS (a b : Option String) : Option String :=
  match a with
  | some s => if s ≠ "" then a else b
  | none => b

/-! ### Character classes and Python string primitives -/

/-- The characters `str.strip()` removes (Python's ASCII whitespace: space,
tab, line feed, carriage return, vertical tab 0x0B and form feed 0x0C). -/
def isPyWs (c : Char) : Bool :=
  [32, 9, 10, 13, 11, 12].contains c.toNat

def isDigitC (c : Char) : Bool := c.isDigit

/-- The `[\d.]` character class of the numeric regexes. -/
def isNumDot (c : Char) : Bool := c.isDigit || c == '.'

/-- The `[-–]` character class (ASCII hyphen or U+2013 en dash). -/
def isDash (c : Char) : Bool := c == '-' || c == Char.ofNat 8211

/-- ASCII lowering, the behaviour of Python `str.lower` on the engine's data. -/
def lowerChar (c : Char) : Char :=
  if 65 ≤ c.toNat ∧ c.toNat ≤ 90 then Char.ofNat (c.toNat + 32) else c

def lowerL (l : List Char) : List Char := l.map lowerChar

def pyLower (s : String) : String := String.mk (lowerL s.toList)

def stripL (l : List Char) : List Char :=
  ((l.dropWhile isPyWs).reverse.dropWhile isPyWs).reverse

/-- Python `str.strip()`. -/
def pyStrip (s : String) : String := String.mk (stripL s.toList)

def dropWs (l : List Char) : List Char := l.dropWhile isPyWs

/-- Case-insensitive literal prefix test (how `re.I` matches a literal). -/
def ciPrefix (p l : List Char) : Bool := (lowerL p).isPrefixOf (lowerL l)

/-- Case-insensitive substring containment, i.e. `re.search` of a literal
alternation member under `re.I`. -/
def ciContains (p : List Char) : List Char → Bool
  | [] => p.isEmpty
  | c :: rest => ciPrefix p (c :: rest) || ciContains p rest

/-- Case-sensitive substring containment (Python `pattern in s`). -/
def substrOf (p : List Char) : List Char → Bool
  | [] => p.isEmpty
  | c :: rest => p.isPrefixOf (c :: rest) || substrOf p rest

def digitsToNat (l : List Char) : ℕ :=
  l.foldl (fun a c => 10 * a + (c.toNat - 48)) 0

/-! ### Python `float()` and `round(x, 1)`

Python carries the parsed numbers as IEEE binary64 doubles.  The model keeps
every double as the exact rational it denotes: `nearestDouble q` is the
binary64 value nearest to `q` (53-bit significand, ties to even), with an
idealized unbounded exponent (no overflow to infinity and no subnormal
flushing, which only diverges from CPython on tokens more than ~308 digits
long).  All arithmetic the source performs on such values (`/ 2`, `* 2`,
comparison with 100) is exact on binary64, so ordinary rational arithmetic on
these dyadic rationals is faithful.

`pyFloat` models `float(tok)` for the tokens the regexes can produce (runs of
digits and dots): valid iff the token has at least one digit and at most one
dot; otherwise `float` raises `ValueError`, modelled as `none`.

`pyRound1` models CPython `round(x, 1)` on a double `x`: the decimal value
`n / 10` correctly rounded from `x` (ties to even — a tie occurs only when
`x` is an exact odd multiple of 1/4), converted back to the nearest double. -/

/-- Halving and doubling of a rational, written out on the numerator and
denominator (these are the exact binary64 operations `x / 2` and `x * 2`
the source performs; spelled via `mkRat` so that they evaluate by kernel
reduction — `qDiv2_eq` and `qMul2_eq` identify them with `/ 2` and `* 2`). -/
def qDiv2 (q : ℚ) : ℚ := mkRat q.num (q.den * 2)

def qMul2 (q : ℚ) : ℚ := mkRat (q.num * 2) q.den

/-- Round a rational to the nearest integer, ties to even (the fractional
part `r / den` is compared with 1/2 by cross-multiplication). -/
def roundHalfEvenZ (x : ℚ) : ℤ :=
  let n := x.floor
  let r : ℤ := x.num - n * (x.den : ℤ)
  if 2 * r < (x.den : ℤ) then n
  else if (x.den : ℤ) < 2 * r then n + 1
  else if n % 2 = 0 then n else n + 1

/-- Whether `n * 2^t ≥ c`, with `t` a possibly negative exponent. -/
def geScaled (n : ℕ) (t : ℤ) (c : ℕ) : Bool :=
  if 0 ≤ t then decide (c ≤ n * 2 ^ t.toNat) else decide (c * 2 ^ (-t).toNat ≤ n)

/-- Fueled base-2 logarithm (`⌊log₂ n⌋`, and 0 at 0; structurally recursive
so that it evaluates under kernel reduction). -/
def log2F : ℕ → ℕ → ℕ
  | 0, _ => 0
  | fuel + 1, n => if 2 ≤ n then log2F fuel (n / 2) + 1 else 0

def natLog2 (n : ℕ) : ℕ := log2F n n

/-- The binary exponent `t` with `2^52 ≤ (n / d) * 2^t < 2^53`, for
`n, d > 0`. -/
def dblExpPos (n d : ℕ) : ℤ :=
  let t0 : ℤ := 52 - ((natLog2 n : ℤ) - (natLog2 d : ℤ))
  if geScaled n t0 (2 ^ 52 * d) then t0 else t0 + 1

/-- Round-half-even integer division. -/
def halfEvenDiv (N D : ℕ) : ℕ :=
  let k := N / D
  let r := N % D
  if 2 * r < D then k
  else if D < 2 * r then k + 1
  else if k % 2 = 0 then k else k + 1

/-- The binary64 value nearest to `n / d` (`n, d > 0`): the 53-bit
significand `m` rounded half-to-even at exponent `t`, returned as the exact
rational `m / 2^t`. -/
def nearestDoubleND (n d : ℕ) : ℚ :=
  let t := dblExpPos n d
  if 0 ≤ t then mkRat (halfEvenDiv (n * 2 ^ t.toNat) d : ℕ) (2 ^ t.toNat)
  else ((halfEvenDiv n (d * 2 ^ (-t).toNat) * 2 ^ (-t).toNat : ℕ) : ℚ)

/-- The binary64 value nearest to `q`, as an exact rational (idealized
unbounded exponent: no overflow or subnormal flushing). -/
def nearestDouble (q : ℚ) : ℚ :=
  if q.num = 0 then 0
  else if q.num < 0 then
    mkRat (-(nearestDoubleND q.num.natAbs q.den).num) (nearestDoubleND q.num.natAbs q.den).den
  else nearestDoubleND q.num.natAbs q.den

def pyFloat (s : String) : Option ℚ :=
  let l := s.toList
  if l.all isNumDot then
    match l.splitOn '.' with
    | [i] => if i ≠ [] then some (nearestDouble (mkRat (digitsToNat i : ℤ) 1)) else none
    | [i, f] =>
        if i ++ f ≠ [] then
          some (nearestDouble
            (mkRat ((digitsToNat i * 10 ^ f.length + digitsToNat f : ℕ) : ℤ) (10 ^ f.length)))
        else none
    | _ => none
  else none

def pyRound1 (q : ℚ) : ℚ :=
  nearestDouble (mkRat (roundHalfEvenZ (mkRat (q.num * 10) q.den)) 10)

theorem qDiv2_eq (q : ℚ) : qDiv2 q = q / 2 := by
  rw [qDiv2, Rat.mkRat_eq_div]
  push_cast
  rw [div_mul_eq_div_div, Rat.num_div_den]

theorem qMul2_eq (q : ℚ) : qMul2 q = q * 2 := by
  rw [qMul2, Rat.mkRat_eq_div]
  push_cast
  rw [mul_div_right_comm, Rat.num_div_den]

/-! ### Leftmost regex scanners -/

/-- One attempt of `([\d.]+)\s*proof` (case-insensitive) at the current
position: a maximal nonempty digit/dot run, maximal whitespace, then the
literal `proof`.  Returns the captured group. -/
def tryProofAt (l : List Char) : Option String :=
  let g := l.takeWhile isNumDot
  if g = [] then none
  else if ciPrefix "proof".toList (dropWs (l.dropWhile isNumDot)) then some (String.mk g)
  else none

/-- `re.search(r'([\d.]+)\s*proof', s, re.I)`: leftmost position at which
`tryProofAt` succeeds. -/
def findProofGroup : List Char → Option String
  | [] => none
  | c :: rest =>
    match tryProofAt (c :: rest) with
    | some g => some g
    | none => findProofGroup rest

/-- The captured group of `re.search(r'([\d.]+)\s*%?\s*(?:abv)?', s, re.I)`
and of `re.search(r'([\d.]+)', s)`: since `%` and `abv` are optional, both
patterns match at the first digit/dot character and capture the maximal run
starting there. -/
def firstNumRun : List Char → Option String
  | [] => none
  | c :: rest =>
    if isNumDot c then some (String.mk ((c :: rest).takeWhile isNumDot)) else firstNumRun rest

/-- One attempt of `(\d+)\s*[-–]\s*(\d+)\s*(?:years?|yr|yrs)` (case-insensitive)
at the current position. -/
def tryRangeAt (l : List Char) : Option (ℕ × ℕ) :=
  let d1 := l.takeWhile isDigitC
  if d1 = [] then none
  else
    match dropWs (l.dropWhile isDigitC) with
    | [] => none
    | d :: r2 =>
      if isDash d then
        let r3 := dropWs r2
        let d2 := r3.takeWhile isDigitC
        if d2 = [] then none
        else
          let r4 := dropWs (r3.dropWhile isDigitC)
          if ciPrefix "year".toList r4 || ciPrefix "yr".toList r4 then
            some (digitsToNat d1, digitsToNat d2)
          else none
      else none

def findAgeRange : List Char → Option (ℕ × ℕ)
  | [] => none
  | c :: rest =>
    match tryRangeAt (c :: rest) with
    | some p => some p
    | none => findAgeRange rest

/-- One attempt of `(\d+)\s*[-–]?\s*(?:years?|yr|yrs|year-old|yo)`
(case-insensitive) at the current position.  When the optional dash is
present the engine must consume it: declining it leaves the dash character
where the year token is required, which cannot match, so the greedy path is
the only one. -/
def trySimpleAt (l : List Char) : Option ℕ :=
  let d1 := l.takeWhile isDigitC
  if d1 = [] then none
  else
    let r1 := dropWs (l.dropWhile isDigitC)
    let r2 :=
      match r1 with
      | d :: t => if isDash d then dropWs t else r1
      | [] => r1
    if ciPrefix "year".toList r2 || ciPrefix "yr".toList r2 || ciPrefix "yo".toList r2 then
      some (digitsToNat d1)
    else none

def findAgeSimple : List Char → Option ℕ
  | [] => none
  | c :: rest =>
    match trySimpleAt (c :: rest) with
    | some n => some n
    | none => findAgeSimple rest

/-! ### The field parsers of src/lib/normalize.py -/

/-- The pattern logic of `parse_proof` on the stripped text.  The second
pattern `([\d.]+)\s*%?\s*(?:abv)?` matches whenever any digit/dot run
exists, so the third branch (`([\d.]+)` alone) is unreachable; both capture
`firstNumRun`.  `float(...)` over a degenerate token (no digit, or two dots)
raises `ValueError`, modelled as `Except.error ()`. -/
def parse_proof_core (s : List Char) : Except Unit (Option ℚ × Option ℚ) :=
  match findProofGroup s with
  | some g =>
    match pyFloat g with
    | none => .error ()
    | some proof => .ok (some proof, some (pyRound1 (qDiv2 proof)))
  | none =>
    match firstNumRun s with
    | some g =>
      match pyFloat g with
      | none => .error ()
      | some val =>
        if 100 < val then .ok (some val, some (pyRound1 (qDiv2 val)))
        else .ok (some (pyRound1 (qMul2 val)), some val)
    | none => .ok (none, none)

/-- `parse_proof` (src/lib/normalize.py:19). -/
def parse_proof (raw : Option RawVal) : Except Unit (Option ℚ × Option ℚ) :=
  match raw with
  | none => .ok (none, none)
  | some v =>
    if pyTruthy v = false then .ok (none, none)
    else parse_proof_core ((pyStrip (pyStr v)).toList)

/-- The pattern logic of `parse_age` on the stripped text. -/
def parse_age_core (s : List Char) : Option ℕ :=
  match findAgeRange s with
  | some p => some p.2
  | none =>
    match findAgeSimple s with
    | some n => some n
    | none =>
      if s ≠ [] ∧ s.all isDigitC then
        let val := digitsToNat s
        if 2 ≤ val ∧ val ≤ 50 then some val else none
      else none

/-- `parse_age` (src/lib/normalize.py:51). -/
def parse_age (raw : Option RawVal) : Option ℕ :=
  match raw with
  | none => none
  | some v =>
    if pyTruthy v = false then none
    else parse_age_core ((pyStrip (pyStr v)).toList)

/-- The placeholder alternation `re.search(r'tbd|tba|n/a|pending|unknown', s, re.I)`. -/
def pricePlaceholder (l : List Char) : Bool :=
  ciContains "tbd".toList l || ciContains "tba".toList l || ciContains "n/a".toList l ||
    ciContains "pending".toList l || ciContains "unknown".toList l

/-- The logic of `parse_price` on the stripped text.  The search pattern
`\$?\s*([\d,.]+)` runs over `s.replace(',', '')`; with the commas gone and
both `\$?` and `\s*` optional, the captured group is the first maximal
digit/dot run of the comma-stripped text. -/
def parse_price_core (s : List Char) : Except Unit (Option ℚ) :=
  if pricePlaceholder s then .ok none
  else
    match firstNumRun (s.filter (fun c => c ≠ ',')) with
    | some g =>
      match pyFloat g with
      | none => .error ()
      | some q => .ok (some q)
    | none => .ok none

/-- `parse_price` (src/lib/normalize.py:78). -/
def parse_price (raw : Option RawVal) : Except Unit (Option ℚ) :=
  match raw with
  | none => .ok none
  | some v =>
    if pyTruthy v = false then .ok none
    else parse_price_core ((pyStrip (pyStr v)).toList)

/-! ### SHA-256 (hashlib.sha256) and `generate_id`

A bit-accurate SHA-256 over byte lists, with 32-bit words carried as `ℕ`
values kept below `2^32`. -/

def M32 : ℕ := 4294967296

def add32 (a b : ℕ) : ℕ := (a + b) % M32

/-- Combine two 32-bit words bit by bit (32 fueled steps). -/
def bitZip (f : Bool → Bool → Bool) : ℕ → ℕ → ℕ → ℕ
  | 0, _, _ => 0
  | n + 1, a, b =>
    (if f (a % 2 = 1) (b % 2 = 1) then 1 else 0) + 2 * bitZip f n (a / 2) (b / 2)

def xor32 (a b : ℕ) : ℕ := bitZip (fun x y => x ≠ y) 32 a b

def and32 (a b : ℕ) : ℕ := bitZip (fun x y => x ∧ y) 32 a b

def not32 (a : ℕ) : ℕ := (M32 - 1) - a

def rotr32 (n x : ℕ) : ℕ := x / 2 ^ n + x % 2 ^ n * 2 ^ (32 - n)

def shr32 (n x : ℕ) : ℕ := x / 2 ^ n

def bsig0 (x : ℕ) : ℕ := xor32 (xor32 (rotr32 2 x) (rotr32 13 x)) (rotr32 22 x)

def bsig1 (x : ℕ) : ℕ := xor32 (xor32 (rotr32 6 x) (rotr32 11 x)) (rotr32 25 x)

def ssig0 (x : ℕ) : ℕ := xor32 (xor32 (rotr32 7 x) (rotr32 18 x)) (shr32 3 x)

def ssig1 (x : ℕ) : ℕ := xor32 (xor32 (rotr32 17 x) (rotr32 19 x)) (shr32 10 x)

def chW (e f g : ℕ) : ℕ := xor32 (and32 e f) (and32 (not32 e) g)

def majW (a b c : ℕ) : ℕ := xor32 (xor32 (and32 a b) (and32 a c)) (and32 b c)

def shaK : List ℕ :=
  [1116352408, 1899447441, 3049323471, 3921009573, 961987163,
   1508970993, 2453635748, 2870763221, 3624381080, 310598401,
   607225278, 1426881987, 1925078388, 2162078206, 2614888103,
   3248222580, 3835390401, 4022224774, 264347078, 604807628,
   770255983, 1249150122, 1555081692, 1996064986, 2554220882,
   2821834349, 2952996808, 3210313671, 3336571891, 3584528711,
   113926993, 338241895, 666307205, 773529912, 1294757372,
   1396182291, 1695183700, 1986661051, 2177026350, 2456956037,
   2730485921, 2820302411, 3259730800, 3345764771, 3516065817,
   3600352804, 4094571909, 275423344, 430227734, 506948616,
   659060556, 883997877, 958139571, 1322822218, 1537002063,
   1747873779, 1955562222, 2024104815, 2227730452, 2361852424,
   2428436474, 2756734187, 3204031479, 3329325298]

def shaH0 : List ℕ :=
  [1779033703, 3144134277, 1013904242, 2773480762, 1359893119,
   2600822924, 528734635, 1541459225]

/-- Extend the 16 block words to the 64-word message schedule. -/
def shaSchedule : ℕ → List ℕ → List ℕ
  | 0, acc => acc
  | n + 1, acc =>
    let L := acc.length
    shaSchedule n
      (acc ++ [add32 (add32 (ssig1 (acc.getD (L - 2) 0)) (acc.getD (L - 7) 0))
                 (add32 (ssig0 (acc.getD (L - 15) 0)) (acc.getD (L - 16) 0))])

def shaRounds : List (ℕ × ℕ) → List ℕ → List ℕ
  | [], st => st
  | kw :: rest, st =>
    match st with
    | [a, b, c, d, e, f, g, h] =>
      let t1 := add32 (add32 (add32 h (bsig1 e)) (add32 (chW e f g) kw.1)) kw.2
      let t2 := add32 (bsig0 a) (majW a b c)
      shaRounds rest [add32 t1 t2, a, b, c, add32 d t1, e, f, g]
    | _ => st

def shaCompress (H block : List ℕ) : List ℕ :=
  let w := shaSchedule 48 block
  List.zipWith add32 H (shaRounds (shaK.zip w) H)

def be64 (n : ℕ) : List ℕ :=
  [n / 2 ^ 56 % 256, n / 2 ^ 48 % 256, n / 2 ^ 40 % 256, n / 2 ^ 32 % 256,
   n / 2 ^ 24 % 256, n / 2 ^ 16 % 256, n / 2 ^ 8 % 256, n % 256]

def shaPad (msg : List ℕ) : List ℕ :=
  let L := msg.length
  let z := (64 + 56 - (L + 1) % 64) % 64
  msg ++ [128] ++ List.replicate z 0 ++ be64 (8 * L)

def bytesToWords : List ℕ → List ℕ
  | b1 :: b2 :: b3 :: b4 :: rest => (((b1 * 256 + b2) * 256 + b3) * 256 + b4) :: bytesToWords rest
  | _ => []

def chunk16 : ℕ → List ℕ → List (List ℕ)
  | 0, _ => []
  | _, [] => []
  | fuel + 1, l => l.take 16 :: chunk16 fuel (l.drop 16)

def sha256words (msg : List ℕ) : List ℕ :=
  let words := bytesToWords (shaPad msg)
  (chunk16 words.length words).foldl shaCompress shaH0

def hexDigit (n : ℕ) : Char :=
  if n < 10 then Char.ofNat (48 + n) else Char.ofNat (87 + n)

def word8hex (w : ℕ) : List Char :=
  [hexDigit (w / 16 ^ 7 % 16), hexDigit (w / 16 ^ 6 % 16), hexDigit (w / 16 ^ 5 % 16),
   hexDigit (w / 16 ^ 4 % 16), hexDigit (w / 16 ^ 3 % 16), hexDigit (w / 16 ^ 2 % 16),
   hexDigit (w / 16 % 16), hexDigit (w % 16)]

/-- `hashlib.sha256(bytes).hexdigest()`. -/
def sha256hex (msg : List ℕ) : String := String.mk ((sha256words msg).map word8hex).flatten

/-- UTF-8 encoding of one code point (Python `str.encode()`). -/
def utf8Char (c : Char) : List ℕ :=
  let n := c.toNat
  if n < 128 then [n]
  else if n < 2048 then [192 + n / 64, 128 + n % 64]
  else if n < 65536 then [224 + n / 4096, 128 + n / 64 % 64, 128 + n % 64]
  else [240 + n / 262144, 128 + n / 4096 % 64, 128 + n / 64 % 64, 128 + n % 64]

def utf8Bytes (s : String) : List ℕ := (s.toList.map utf8Char).flatten

/-- The canonicalization inside `generate_id`:
`re.sub(r'[^a-z0-9]', '', product_name.lower())`. -/
def canonName (product_name : String) : String :=
  String.mk ((pyLower product_name).toList.filter
    (fun c => (97 ≤ c.toNat ∧ c.toNat ≤ 122) ∨ c.isDigit))

/-- `generate_id` (src/lib/normalize.py:12). -/
def generate_id (product_name : String) (release_year : ℤ := 2026) : String :=
  (sha256hex (utf8Bytes (canonName product_name ++ "-" ++ toString release_year))).take 16

/-! ### Classification tables (TYPE_MAP, classify_type, KNOWN_DISTILLERIES,
extract_distillery)

Python dicts iterate in insertion order, so the tables are ordered pair
lists and a lookup is `List.find?` on a substring test.  String literals
containing an apostrophe are assembled with `apos` to keep the file free of
stray quote characters. -/

def apos : String := String.singleton (Char.ofNat 39)

def TYPE_MAP : List (String × String) :=
  [("bourbon", "bourbon"),
   ("kentucky straight bourbon", "bourbon"),
   ("straight bourbon", "bourbon"),
   ("rye", "rye"),
   ("straight rye", "rye"),
   ("rye whiskey", "rye"),
   ("wheat whiskey", "wheat"),
   ("wheated bourbon", "bourbon"),
   ("tennessee whiskey", "tennessee"),
   ("tennessee", "tennessee"),
   ("single malt", "single_malt"),
   ("american single malt", "single_malt"),
   ("scotch", "scotch"),
   ("japanese whisky", "japanese"),
   ("blended", "blend"),
   ("blend", "blend")]

/-- `classify_type` (src/lib/normalize.py:112). -/
def classify_type (raw : Option RawVal) : String :=
  match raw with
  | none => "bourbon"
  | some v =>
    if pyTruthy v = false then "bourbon"
    else
      let s := (pyStrip (pyLower (pyStr v))).toList
      match TYPE_MAP.find? (fun p => substrOf p.1.toList s) with
      | some p => p.2
      | none =>
        if substrOf "rye".toList s then "rye"
        else if substrOf "wheat".toList s then "wheat"
        else if substrOf "scotch".toList s || substrOf "highland".toList s ||
            substrOf "speyside".toList s || substrOf "islay".toList s then "scotch"
        else "bourbon"

def KNOWN_DISTILLERIES : List (String × String) :=
  [("buffalo trace", "Buffalo Trace"),
   ("wild turkey", "Wild Turkey"),
   ("heaven hill", "Heaven Hill"),
   ("jim beam", "Jim Beam"),
   ("beam suntory", "Jim Beam"),
   ("maker" ++ apos ++ "s mark", "Maker" ++ apos ++ "s Mark"),
   ("makers mark", "Maker" ++ apos ++ "s Mark"),
   ("woodford reserve", "Woodford Reserve"),
   ("four roses", "Four Roses"),
   ("knob creek", "Jim Beam"),
   ("booker" ++ apos ++ "s", "Jim Beam"),
   ("bookers", "Jim Beam"),
   ("baker" ++ apos ++ "s", "Jim Beam"),
   ("basil hayden", "Jim Beam"),
   ("old forester", "Brown-Forman"),
   ("jack daniel" ++ apos ++ "s", "Jack Daniel" ++ apos ++ "s"),
   ("jack daniel", "Jack Daniel" ++ apos ++ "s"),
   ("george dickel", "George Dickel"),
   ("barrell", "Barrell Craft Spirits"),
   ("angel" ++ apos ++ "s envy", "Angel" ++ apos ++ "s Envy"),
   ("angels envy", "Angel" ++ apos ++ "s Envy"),
   ("michter" ++ apos ++ "s", "Michter" ++ apos ++ "s"),
   ("michter", "Michter" ++ apos ++ "s"),
   ("e.h. taylor", "Buffalo Trace"),
   ("eagle rare", "Buffalo Trace"),
   ("george t. stagg", "Buffalo Trace"),
   ("stagg", "Buffalo Trace"),
   ("blanton" ++ apos ++ "s", "Buffalo Trace"),
   ("blanton", "Buffalo Trace"),
   ("weller", "Buffalo Trace"),
   ("pappy van winkle", "Buffalo Trace"),
   ("van winkle", "Buffalo Trace"),
   ("sazerac", "Buffalo Trace"),
   ("elijah craig", "Heaven Hill"),
   ("evan williams", "Heaven Hill"),
   ("larceny", "Heaven Hill"),
   ("henry mckenna", "Heaven Hill"),
   ("parker" ++ apos ++ "s heritage", "Heaven Hill"),
   ("old fitzgerald", "Heaven Hill"),
   ("rebel", "Lux Row"),
   ("blood oath", "Lux Row"),
   ("little book", "Jim Beam"),
   ("redwood empire", "Redwood Empire"),
   ("belle meade", "Nelson" ++ apos ++ "s Green Brier"),
   ("whistlepig", "WhistlePig"),
   ("high west", "High West"),
   ("bardstown bourbon", "Bardstown Bourbon Company"),
   ("king of kentucky", "Brown-Forman"),
   ("old elk", "Old Elk"),
   ("rabbit hole", "Rabbit Hole"),
   ("still austin", "Still Austin"),
   ("kentucky owl", "Kentucky Owl"),
   ("smoke wagon", "Smoke Wagon"),
   ("new riff", "New Riff"),
   ("wilderness trail", "Wilderness Trail"),
   ("castle & key", "Castle & Key"),
   ("starlight", "Starlight"),
   ("colonel e.h. taylor", "Buffalo Trace"),
   ("thomas h. handy", "Buffalo Trace"),
   ("william larue weller", "Buffalo Trace")]

/-- `extract_distillery` (src/lib/normalize.py:235). -/
def extract_distillery (product_name : String) : Option String :=
  if product_name = "" then none
  else
    let lower := (pyLower product_name).toList
    (KNOWN_DISTILLERIES.find? (fun p => substrOf p.1.toList lower)).map (·.2)

/-! ### Month normalization -/

def MONTHS : List String :=
  ["January", "February", "March", "April", "May", "June", "July", "August", "September",
   "October", "November", "December"]

/-- One attempt of `re.search(rf'{m}\s*{year}', s, re.I)` at a position:
the month literal (case-insensitively), maximal whitespace, the year digits. -/
def tryMonthYearAt (m : List Char) (y : List Char) (l : List Char) : Bool :=
  ciPrefix m l && y.isPrefixOf (dropWs (l.drop m.length))

def containsMonthYear (m : List Char) (y : List Char) : List Char → Bool
  | [] => false
  | c :: rest => tryMonthYearAt m y (c :: rest) || containsMonthYear m y rest

/-- One attempt of `(\d{1,2})\s*[/\-]\s*(\d{2,4})` at a position, returning
the first captured group.  `\d{1,2}` is greedy: two digits are tried before
one; the trailing group only requires that at least two digits follow. -/
def trySlashAt (l : List Char) : Option ℕ :=
  let cont := fun (k : ℕ) =>
    (l.take k).all isDigitC && l.length ≥ k &&
      (match dropWs (l.drop k) with
       | sep :: t => (sep == '/' || sep == '-') &&
           ((dropWs t).takeWhile isDigitC).length ≥ 2
       | [] => false)
  if cont 2 then some (digitsToNat (l.take 2))
  else if cont 1 then some (digitsToNat (l.take 1))
  else none

def findNumericMonth : List Char → Option ℕ
  | [] => none
  | c :: rest =>
    match trySlashAt (c :: rest) with
    | some n => some n
    | none => findNumericMonth rest

/-- `re.search(r'q(\d)', s, re.I)`: first `q` immediately followed by a digit. -/
def findQDigit : List Char → Option ℕ
  | [] => none
  | [_] => none
  | c :: d :: rest =>
    if (c == 'q' || c == 'Q') && isDigitC d then some (d.toNat - 48)
    else findQDigit (d :: rest)

/-- The pattern logic of `normalize_month` on the stripped text.  When the
numeric pattern matches but its month index is out of range the source falls
through to the quarter pattern, hence the two-stage match below. -/
def normalize_month_core (s : List Char) (year : ℕ) : Option String :=
  match MONTHS.find? (fun m => containsMonthYear m.toList (toString year).toList s) with
  | some m => some (m ++ " " ++ toString year)
  | none =>
    match MONTHS.find? (fun m => (lowerL m.toList).take 3 |>.isPrefixOf (lowerL s)) with
    | some m => some (m ++ " " ++ toString year)
    | none =>
      let numeric : Option String :=
        match findNumericMonth s with
        | some g1 =>
          let idx : ℤ := (g1 : ℤ) - 1
          if 0 ≤ idx ∧ idx < 12 then some (MONTHS.getD idx.toNat "" ++ " " ++ toString year)
          else none
        | none => none
      match numeric with
      | some r => some r
      | none =>
        match findQDigit s with
        | some q =>
          let idx : ℤ := ((q : ℤ) - 1) * 3
          if 0 ≤ idx ∧ idx < 12 then some (MONTHS.getD idx.toNat "" ++ " " ++ toString year)
          else none
        | none => none

/-- `normalize_month` (src/lib/normalize.py:136). -/
def normalize_month (raw : Option RawVal) (year : ℕ := 2026) : Option String :=
  match raw with
  | none => none
  | some v =>
    if pyTruthy v = false then none
    else normalize_month_core ((pyStrip (pyStr v)).toList) year

/-! ### The full normalization pipeline -/

/-- A raw scraped release mapping (the keys `normalize_release` consults).
The name-resolution, distillery, release-date and free-text fields only ever
flow through as strings, so they are typed as optional strings; the fields
fed to the parsers may be any raw scalar; `release_year` and
`bottle_size_ml` carry numbers when present; `is_limited` / `is_new` enter
only through their truthiness. -/
structure RawRecord where
  product_name : Option String := none
  name : Option String := none
  proof : Option RawVal := none
  abv : Option RawVal := none
  age : Option RawVal := none
  age_years : Option RawVal := none
  msrp : Option RawVal := none
  price : Option RawVal := none
  release_month : Option RawVal := none
  month : Option RawVal := none
  type : Option RawVal := none
  distillery : Option String := none
  bottle_size_ml : Option ℤ := none
  release_date : Option String := none
  release_year : Option ℤ := none
  batch : Option String := none
  finish : Option String := none
  mashbill : Option String := none
  notes : Option String := none
  is_limited : Bool := false
  is_new : Bool := false
  image_url : Option String := none
  source_url : Option String := none
  deriving DecidableEq, Repr

/-- The canonical schema emitted by `normalize_release`. -/
structure NormRecord where
  id : String
  product_name : String
  distillery : Option String
  type : String
  proof : Option ℚ
  abv : Option ℚ
  age_years : Option ℕ
  msrp : Option ℚ
  bottle_size_ml : ℤ
  release_month : Option String
  release_date : Option String
  release_year : ℤ
  batch : Option String
  finish : Option String
  mashbill : Option String
  notes : Option String
  is_limited : ℤ
  is_new : ℤ
  image_url : Option String
  source_url : Option String
  deriving DecidableEq, Repr

instance : Inhabited NormRecord :=
  ⟨{ id := "", product_name := "", distillery := none, type := "", proof := none, abv := none,
     age_years := none, msrp := none, bottle_size_ml := 0, release_month := none,
     release_date := none, release_year := 0, batch := none, finish := none, mashbill := none,
     notes := none, is_limited := 0, is_new := 0, image_url := none, source_url := none }⟩

/-- `normalize_release` (src/lib/normalize.py:247).  A missing product name
yields `ok none` (the record is rejected); a `ValueError` escaping
`parse_proof` or `parse_price` propagates as `error`. -/
def normalize_release (raw : RawRecord) : Except Unit (Option NormRecord) := do
  let product_name := pyStrip ((pyOrS raw.product_name (pyOrS raw.name (some ""))).getD "")
  if product_name = "" then return none
  let pa ← parse_proof (pyOrV raw.proof raw.abv)
  let age := parse_age (pyOrV (pyOrV raw.age raw.age_years) (some (.vStr product_name)))
  let price ← parse_price (pyOrV raw.msrp raw.price)
  let month := normalize_month (pyOrV raw.release_month raw.month)
  let type_val := classify_type (pyOrV raw.type (some (.vStr product_name)))
  let distillery := pyOrS raw.distillery (extract_distillery product_name)
  return some
    { id := generate_id product_name
      product_name := product_name
      distillery := distillery
      type := type_val
      proof := pa.1
      abv := pa.2
      age_years := age
      msrp := price
      bottle_size_ml :=
        match raw.bottle_size_ml with
        | some n => if n ≠ 0 then n else 750
        | none => 750
      release_month := month
      release_date := raw.release_date
      release_year := raw.release_year.getD 2026
      batch := raw.batch
      finish := raw.finish
      mashbill := raw.mashbill
      notes := raw.notes
      is_limited := if raw.is_limited then 1 else 0
      is_new := if raw.is_new then 1 else 0
      image_url := raw.image_url
      source_url := raw.source_url }

/-! ### Deduplication (deduplicate_releases, src/lib/normalize.py:286)

The engine treats the normalized records as plain dicts: it reads `r['id']`
and `r['product_name']` (always present and non-null on normalized records)
and merges every other key uniformly by the null-fill rule.  A record is
therefore modelled as its identity, its product name, and a total map from
the remaining key space `κ` to optional values — `rest k = none` covers both
"key absent" and "key present with value None", which the source's
`existing.get(key) is None` test treats identically.

The optional fuzzy-similarity capability (`from thefuzz import fuzz`, whose
`ImportError` is caught) is modelled as an `Option`-al scoring function
passed to the engine; `none` is the import failing. -/

structure Release (κ V : Type) where
  id : String
  product_name : String
  rest : κ → Option V

/-- The null-fill merge of one record into an accumulator: every field of
`acc` that is null takes `r`'s value, non-null fields are kept (`id` and
`product_name` are never null on a normalized record, so they are kept). -/
def fillNone {κ V : Type} (acc r : Release κ V) : Release κ V :=
  { id := acc.id
    product_name := acc.product_name
    rest := fun k =>
      match acc.rest k with
      | some v => some v
      | none => r.rest k }

/-- One step of Phase 1: merge `r` into the first seen record with its id,
or append it (as a fresh copy) at the end. -/
def updateFirst {κ V : Type} : List (Release κ V) → Release κ V → List (Release κ V)
  | [], r => [r]
  | x :: xs, r => if x.id = r.id then fillNone x r :: xs else x :: updateFirst xs r

/-- Phase 1 — exact-identity merge (`seen_ids`, an insertion-ordered dict). -/
def dedup_phase1 {κ V : Type} (releases : List (Release κ V)) : List (Release κ V) :=
  releases.foldl updateFirst []

/-- The inner `j` loop of Phase 2 for one survivor: walk the not-yet-skipped
later records; a record scoring at or above 85 against the survivor's
(original) lowercased name is merged into the accumulator and consumed,
the rest are kept.  The `skip_indices` set of the source is realized by
returning the list of records that remain unconsumed. -/
def absorb {κ V : Type} (fuzz : String → String → ℕ) (name1 : String) :
    Release κ V → List (Release κ V) → Release κ V × List (Release κ V)
  | acc, [] => (acc, [])
  | acc, x :: xs =>
    if 85 ≤ fuzz name1 (pyLower x.product_name) then
      absorb fuzz name1 (fillNone acc x) xs
    else
      let p := absorb fuzz name1 acc xs
      (p.1, x :: p.2)

theorem absorb_len {κ V : Type} (fuzz : String → String → ℕ) (name1 : String)
    (acc : Release κ V) (l : List (Release κ V)) :
    (absorb fuzz name1 acc l).2.length ≤ l.length := by
  induction l generalizing acc with
  | nil => simp [absorb]
  | cons x xs ih =>
    simp only [absorb]
    split
    · exact Nat.le_succ_of_le (ih _)
    · simpa using ih acc

/-- Phase 2 — fuzzy near-duplicate merge (forward scan, non-transitive). -/
def dedup_phase2 {κ V : Type} (fuzz : String → String → ℕ) :
    List (Release κ V) → List (Release κ V)
  | [] => []
  | r :: rest =>
    let p := absorb fuzz (pyLower r.product_name) r rest
    p.1 :: dedup_phase2 fuzz p.2
termination_by l => l.length
decreasing_by
  simp only [List.length_cons]
  exact Nat.lt_succ_of_le (absorb_len _ _ _ _)

/-- `deduplicate_releases` (src/lib/normalize.py:286). -/
def deduplicate_releases {κ V : Type} (fuzz? : Option (String → String → ℕ))
    (releases : List (Release κ V)) : List (Release κ V) :=
  if releases.isEmpty then []
  else
    let deduped := dedup_phase1 releases
    match fuzz? with
    | some fuzz => dedup_phase2 fuzz deduped
    | none => deduped

/-! ### Deduplication over an explicit heap

To express what the Python function does to its *input objects*, the same
algorithm is repeated over an explicit store: records live in a heap (a list
indexed by allocation address), the input is a list of addresses, every
`dict(r)` of the source is an allocation, and every in-place merge is a
`List.set` at the accumulator's address. -/

def defaultRel (κ V : Type) : Release κ V :=
  { id := "", product_name := "", rest := fun _ => none }

def hread {κ V : Type} (h : List (Release κ V)) (a : ℕ) : Release κ V :=
  h.getD a (defaultRel κ V)

/-- Phase 1 over the heap: `seen` is the insertion-ordered id → address dict. -/
def phase1H {κ V : Type} : List ℕ → List (Release κ V) → List (String × ℕ) →
    List (Release κ V) × List ℕ
  | [], h, seen => (h, seen.map (·.2))
  | a :: as, h, seen =>
    let r := hread h a
    match seen.lookup r.id with
    | some a2 => phase1H as (h.set a2 (fillNone (hread h a2) r)) seen
    | none => phase1H as (h ++ [r]) (seen ++ [(r.id, h.length)])

/-- The inner Phase 2 loop over the heap: `am` is the address of the fresh
`merged = dict(r1)` copy; consumed records are merged into it in place. -/
def absorbH {κ V : Type} (fuzz : String → String → ℕ) (name1 : String) (am : ℕ) :
    List ℕ → List (Release κ V) → List (Release κ V) × List ℕ
  | [], h => (h, [])
  | b :: bs, h =>
    if 85 ≤ fuzz name1 (pyLower (hread h b).product_name) then
      absorbH fuzz name1 am bs (h.set am (fillNone (hread h am) (hread h b)))
    else
      let p := absorbH fuzz name1 am bs h
      (p.1, b :: p.2)

theorem absorbH_len {κ V : Type} (fuzz : String → String → ℕ) (name1 : String) (am : ℕ)
    (bs : List ℕ) (h : List (Release κ V)) :
    (absorbH fuzz name1 am bs h).2.length ≤ bs.length := by
  induction bs generalizing h with
  | nil => simp [absorbH]
  | cons b bs ih =>
    simp only [absorbH]
    split
    · exact Nat.le_succ_of_le (ih _)
    · simpa using ih h

def phase2H {κ V : Type} (fuzz : String → String → ℕ) :
    List ℕ → List (Release κ V) → List (Release κ V) × List ℕ
  | [], h => (h, [])
  | a :: as, h =>
    let r1 := hread h a
    let h1 := h ++ [r1]
    let am := h.length
    let p := absorbH fuzz (pyLower r1.product_name) am as h1
    let q := phase2H fuzz p.2 p.1
    (q.1, am :: q.2)
termination_by l _ => l.length
decreasing_by
  simp only [List.length_cons]
  exact Nat.lt_succ_of_le (absorbH_len _ _ _ _ _)

/-- `deduplicate_releases` acting on a heap of record objects: takes the
addresses of the input records, returns the final heap and the addresses of
the returned records. -/
def deduplicate_releasesH {κ V : Type} (fuzz? : Option (String → String → ℕ))
    (releases : List ℕ) (h : List (Release κ V)) : List (Release κ V) × List ℕ :=
  if releases.isEmpty then (h, [])
  else
    let p := phase1H releases h []
    match fuzz? with
    | some fuzz => phase2H fuzz p.2 p.1
    | none => p

/-! ### Lemmas about the null-fill merge and the two phases -/

section DedupLemmas

variable {κ V : Type}

@[simp] theorem fillNone_idf (a r : Release κ V) : (fillNone a r).id = a.id := rfl

@[simp] theorem fillNone_namef (a r : Release κ V) :
    (fillNone a r).product_name = a.product_name := rfl

theorem foldl_fillNone_id (l : List (Release κ V)) (r : Release κ V) :
    (List.foldl fillNone r l).id = r.id := by
  induction l generalizing r with
  | nil => rfl
  | cons x xs ih => simpa using ih (fillNone r x)

theorem foldl_fillNone_name (l : List (Release κ V)) (r : Release κ V) :
    (List.foldl fillNone r l).product_name = r.product_name := by
  induction l generalizing r with
  | nil => rfl
  | cons x xs ih => simpa using ih (fillNone r x)

/-- A fold of null-fill merges takes, at every key, the first non-null value
among the group in order. -/
theorem foldl_fillNone_rest (l : List (Release κ V)) (r : Release κ V) (k : κ) :
    (List.foldl fillNone r l).rest k =
      ((r :: l).filterMap (fun x => x.rest k)).head? := by
  induction l generalizing r with
  | nil =>
    cases h : r.rest k <;> simp [List.filterMap, h]
  | cons x xs ih =>
    have step : List.foldl fillNone r (x :: xs) = List.foldl fillNone (fillNone r x) xs := rfl
    rw [step, ih]
    cases h : r.rest k with
    | some v =>
      have h1 : (fillNone r x).rest k = some v := by simp [fillNone, h]
      simp [List.filterMap_cons, h, h1]
    | none =>
      have h1 : (fillNone r x).rest k = x.rest k := by simp [fillNone, h]
      cases h2 : x.rest k <;> simp [List.filterMap_cons, h, h1, h2]

/-! #### Phase 1 structure -/

theorem updateFirst_ne_nil (seen : List (Release κ V)) (r : Release κ V) :
    updateFirst seen r ≠ [] := by
  cases seen with
  | nil => simp [updateFirst]
  | cons x xs =>
    simp only [updateFirst]
    split <;> simp

theorem foldl_updateFirst_ne_nil (l : List (Release κ V)) :
    ∀ seen : List (Release κ V), seen ≠ [] ∨ l ≠ [] →
      List.foldl updateFirst seen l ≠ [] := by
  induction l with
  | nil => intro seen h; simpa using h
  | cons r l2 ih =>
    intro seen _
    exact ih (updateFirst seen r) (Or.inl (updateFirst_ne_nil seen r))

/-- When no seen record carries the new id, `updateFirst` appends. -/
theorem updateFirst_of_fresh (seen : List (Release κ V)) (r : Release κ V)
    (h : ∀ e ∈ seen, e.id ≠ r.id) : updateFirst seen r = seen ++ [r] := by
  induction seen with
  | nil => rfl
  | cons x xs ih =>
    have hx : x.id ≠ r.id := h x (by simp)
    simp only [updateFirst, if_neg hx, List.cons_append]
    rw [ih (fun e he => h e (by simp [he]))]

/-- Ids present in `updateFirst seen r` come from `seen` or are `r.id`. -/
theorem updateFirst_id_src (seen : List (Release κ V)) (r : Release κ V) :
    ∀ e2 ∈ updateFirst seen r, e2.id ∈ seen.map (·.id) ∨ e2.id = r.id := by
  induction seen with
  | nil => intro e2 he; simp [updateFirst] at he; simp [he]
  | cons x xs ih =>
    intro e2 he
    simp only [updateFirst] at he
    split at he
    · rcases List.mem_cons.1 he with h1 | h1
      · subst h1; simp
      · exact Or.inl (by simp; exact Or.inr ⟨e2, h1, rfl⟩)
    · rcases List.mem_cons.1 he with h1 | h1
      · subst h1; simp
      · rcases ih e2 h1 with h2 | h2
        · exact Or.inl (by simp at h2 ⊢; tauto)
        · exact Or.inr h2

/-- Every id of `seen` survives in `updateFirst seen r`. -/
theorem updateFirst_id_keep (seen : List (Release κ V)) (r : Release κ V) :
    ∀ e ∈ seen, ∃ e2 ∈ updateFirst seen r, e2.id = e.id := by
  induction seen with
  | nil => simp
  | cons x xs ih =>
    intro e he
    by_cases hx : x.id = r.id
    · simp only [updateFirst, if_pos hx]
      rcases List.mem_cons.1 he with h1 | h1
      · exact ⟨fillNone x r, by simp, by simp [h1]⟩
      · exact ⟨e, by simp [h1], rfl⟩
    · simp only [updateFirst, if_neg hx]
      rcases List.mem_cons.1 he with h1 | h1
      · exact ⟨x, by simp, by simp [h1]⟩
      · rcases ih e h1 with ⟨e2, he2, hid⟩
        exact ⟨e2, by simp [he2], hid⟩

/-- The id `r.id` is present after `updateFirst seen r`. -/
theorem updateFirst_id_new (seen : List (Release κ V)) (r : Release κ V) :
    ∃ e2 ∈ updateFirst seen r, e2.id = r.id := by
  induction seen with
  | nil => exact ⟨r, by simp [updateFirst], rfl⟩
  | cons x xs ih =>
    by_cases hx : x.id = r.id
    · simp only [updateFirst, if_pos hx]
      exact ⟨fillNone x r, by simp, by simp [hx]⟩
    · simp only [updateFirst, if_neg hx]
      rcases ih with ⟨e2, he2, hid⟩
      exact ⟨e2, by simp [he2], hid⟩

/-- `updateFirst` keeps the seen ids without duplicates. -/
theorem updateFirst_nodup (seen : List (Release κ V)) (r : Release κ V)
    (h : (seen.map (·.id)).Nodup) : ((updateFirst seen r).map (·.id)).Nodup := by
  induction seen with
  | nil => simp [updateFirst]
  | cons x xs ih =>
    simp only [List.map_cons, List.nodup_cons] at h
    by_cases hx : x.id = r.id
    · simp only [updateFirst, if_pos hx]
      simpa using h
    · simp only [updateFirst, if_neg hx]
      refine List.nodup_cons.2 ⟨?_, ih h.2⟩
      intro hmem
      simp only [List.mem_map] at hmem
      rcases hmem with ⟨e2, he2, hid⟩
      rcases updateFirst_id_src xs r e2 he2 with h2 | h2
      · exact h.1 (by rw [← hid]; exact h2)
      · exact hx (by rw [← hid, h2])

/-- Membership in `updateFirst seen r`, on id-nodup seen lists. -/
theorem updateFirst_mem (seen : List (Release κ V)) (r : Release κ V)
    (hnd : (seen.map (·.id)).Nodup) :
    ∀ o ∈ updateFirst seen r,
      (o ∈ seen ∧ o.id ≠ r.id) ∨
      (∃ e ∈ seen, e.id = r.id ∧ o = fillNone e r) ∨
      (o = r ∧ ∀ e ∈ seen, e.id ≠ r.id) := by
  induction seen with
  | nil => intro o ho; simp [updateFirst] at ho; subst ho; simp
  | cons x xs ih =>
    intro o ho
    simp only [List.map_cons, List.nodup_cons] at hnd
    by_cases hx : x.id = r.id
    · simp only [updateFirst, if_pos hx] at ho
      rcases List.mem_cons.1 ho with h1 | h1
      · exact Or.inr (Or.inl ⟨x, by simp, hx, h1⟩)
      · refine Or.inl ⟨by simp [h1], ?_⟩
        intro hid
        exact hnd.1 (by rw [hx, ← hid]; exact List.mem_map_of_mem _ h1)
    · simp only [updateFirst, if_neg hx] at ho
      rcases List.mem_cons.1 ho with h1 | h1
      · exact Or.inl ⟨by simp [h1], by rw [h1]; exact hx⟩
      · rcases ih hnd.2 o h1 with h2 | h2 | h2
        · exact Or.inl ⟨by simp [h2.1], h2.2⟩
        · rcases h2 with ⟨e, he, h3⟩
          exact Or.inr (Or.inl ⟨e, by simp [he], h3⟩)
        · refine Or.inr (Or.inr ⟨h2.1, ?_⟩)
          intro e he
          rcases List.mem_cons.1 he with h4 | h4
          · rw [h4]; exact hx
          · exact h2.2 e h4

/-- The central Phase-1 invariant: each accumulator in `seen` is the
null-fill fold, in first-seen order, of the group of already-processed
records sharing its id. -/
theorem foldl_updateFirst_inv (l : List (Release κ V)) :
    ∀ (p seen : List (Release κ V)),
      (∀ e ∈ seen, ∃ hd tl, p.filter (fun x => x.id = e.id) = hd :: tl ∧
          e = List.foldl fillNone hd tl) →
      (∀ x ∈ p, ∃ e ∈ seen, e.id = x.id) →
      ((seen.map (·.id)).Nodup) →
      ∀ o ∈ List.foldl updateFirst seen l,
        ∃ hd tl, (p ++ l).filter (fun x => x.id = o.id) = hd :: tl ∧
          o = List.foldl fillNone hd tl := by
  induction l with
  | nil =>
    intro p seen h1 _ _ o ho
    simpa using h1 o ho
  | cons r l2 ih =>
    intro p seen h1 h2 h3 o ho
    have step : List.foldl updateFirst seen (r :: l2) =
        List.foldl updateFirst (updateFirst seen r) l2 := rfl
    rw [step] at ho
    have key : ∀ o2 ∈ updateFirst seen r,
        ∃ hd tl, (p ++ [r]).filter (fun x => x.id = o2.id) = hd :: tl ∧
          o2 = List.foldl fillNone hd tl := by
      intro o2 ho2
      rcases updateFirst_mem seen r h3 o2 ho2 with hc | hc | hc
      · rcases h1 o2 hc.1 with ⟨hd, tl, hf, he⟩
        refine ⟨hd, tl, ?_, he⟩
        have hne : ¬(r.id = o2.id) := fun hcon => hc.2 hcon.symm
        rw [List.filter_append, hf]
        simp [List.filter_cons, hne]
      · rcases hc with ⟨e, he, hid, ho2e⟩
        rcases h1 e he with ⟨hd, tl, hf, hee⟩
        have hoid : o2.id = e.id := by rw [ho2e]; rfl
        refine ⟨hd, tl ++ [r], ?_, ?_⟩
        · rw [List.filter_append, hoid, hf]
          simp [List.filter_cons, hid]
        · rw [ho2e, hee, List.foldl_append]
          rfl
      · rcases hc with ⟨ho2r, hfresh⟩
        refine ⟨r, [], ?_, by simp [ho2r]⟩
        have hp : (List.filter (fun x => decide (x.id = r.id)) p) = [] := by
          rw [List.filter_eq_nil_iff]
          intro x hx
          simp only [decide_eq_true_eq]
          rcases h2 x hx with ⟨e, he, hid⟩
          intro hcon
          exact hfresh e he (by rw [hid, hcon])
        rw [List.filter_append, ho2r, hp]
        simp [List.filter_cons]
    have h2b : ∀ x ∈ p ++ [r], ∃ e ∈ updateFirst seen r, e.id = x.id := by
      intro x hx
      rcases List.mem_append.1 hx with h4 | h4
      · rcases h2 x h4 with ⟨e, he, hid⟩
        rcases updateFirst_id_keep seen r e he with ⟨e2, he2, hid2⟩
        exact ⟨e2, he2, by rw [hid2, hid]⟩
      · rcases updateFirst_id_new seen r with ⟨e2, he2, hid2⟩
        simp only [List.mem_singleton] at h4
        exact ⟨e2, he2, by rw [hid2, h4]⟩
    have := ih (p ++ [r]) (updateFirst seen r) key h2b (updateFirst_nodup seen r h3) o ho
    simpa using this

/-- Phase 1 output ids are duplicate-free. -/
theorem foldl_updateFirst_nodup (l : List (Release κ V)) :
    ∀ seen : List (Release κ V), ((seen.map (·.id)).Nodup) →
      ((List.foldl updateFirst seen l).map (·.id)).Nodup := by
  induction l with
  | nil => intro seen h; simpa using h
  | cons r l2 ih => intro seen h; exact ih _ (updateFirst_nodup seen r h)

theorem dedup_phase1_nodup (rs : List (Release κ V)) :
    ((dedup_phase1 rs).map (·.id)).Nodup :=
  foldl_updateFirst_nodup rs [] (by simp)

theorem dedup_phase1_spec (rs : List (Release κ V)) :
    ∀ o ∈ dedup_phase1 rs,
      ∃ hd tl, rs.filter (fun x => x.id = o.id) = hd :: tl ∧
        o = List.foldl fillNone hd tl := by
  intro o ho
  have := foldl_updateFirst_inv rs [] [] (by simp) (by simp) (by simp) o ho
  simpa using this

/-- Lists with duplicate-free ids pass Phase 1 unchanged. -/
theorem foldl_updateFirst_stable (l : List (Release κ V)) :
    ∀ seen : List (Release κ V), (((seen ++ l).map (·.id)).Nodup) →
      List.foldl updateFirst seen l = seen ++ l := by
  induction l with
  | nil => intro seen _; simp
  | cons r l2 ih =>
    intro seen h
    have hfresh : ∀ e ∈ seen, e.id ≠ r.id := by
      intro e he hcon
      have h4 : ((seen.map (·.id)) ++ ((r :: l2).map (·.id))).Nodup := by
        rw [← List.map_append]; simpa using h
      have h5 := (List.nodup_append.1 h4).2.2
      exact h5 (List.mem_map_of_mem _ he) (by rw [hcon]; simp)
    have step : List.foldl updateFirst seen (r :: l2) =
        List.foldl updateFirst (updateFirst seen r) l2 := rfl
    rw [step, updateFirst_of_fresh seen r hfresh, ih (seen ++ [r]) (by simpa using h)]
    simp

theorem dedup_phase1_stable (l : List (Release κ V)) (h : ((l.map (·.id)).Nodup)) :
    dedup_phase1 l = l := by
  have := foldl_updateFirst_stable l [] (by simpa using h)
  simpa [dedup_phase1] using this

/-! #### Phase 2 structure -/

theorem absorb_fst_id (f : String → String → ℕ) (n1 : String) (l : List (Release κ V)) :
    ∀ acc, (absorb f n1 acc l).1.id = acc.id := by
  induction l with
  | nil => intro acc; rfl
  | cons x xs ih =>
    intro acc
    simp only [absorb]
    split
    · rw [ih (fillNone acc x)]; rfl
    · exact ih acc

theorem absorb_fst_name (f : String → String → ℕ) (n1 : String) (l : List (Release κ V)) :
    ∀ acc, (absorb f n1 acc l).1.product_name = acc.product_name := by
  induction l with
  | nil => intro acc; rfl
  | cons x xs ih =>
    intro acc
    simp only [absorb]
    split
    · rw [ih (fillNone acc x)]; rfl
    · exact ih acc

theorem absorb_snd_sublist (f : String → String → ℕ) (n1 : String)
    (l : List (Release κ V)) : ∀ acc, (absorb f n1 acc l).2.Sublist l := by
  induction l with
  | nil => intro acc; simp [absorb]
  | cons x xs ih =>
    intro acc
    simp only [absorb]
    split
    · exact (ih (fillNone acc x)).cons x
    · exact (ih acc).cons₂ x

/-- Records kept (not consumed) by the inner loop scored below the merge
threshold against the survivor's name. -/
theorem absorb_snd_kept (f : String → String → ℕ) (n1 : String) (l : List (Release κ V)) :
    ∀ acc, ∀ x ∈ (absorb f n1 acc l).2, f n1 (pyLower x.product_name) < 85 := by
  induction l with
  | nil => intro acc x hx; simp [absorb] at hx
  | cons y ys ih =>
    intro acc x hx
    simp only [absorb] at hx
    split at hx
    · exact ih _ x hx
    · rcases List.mem_cons.1 hx with h1 | h1
      · subst h1
        omega
      · exact ih acc x h1

/-- The accumulator leaving the inner loop is the null-fill fold of the
original record with the consumed records, in first-seen order. -/
theorem absorb_fst_fold (f : String → String → ℕ) (n1 : String) (l : List (Release κ V)) :
    ∀ acc, ∃ cons, cons.Sublist l ∧ (absorb f n1 acc l).1 = List.foldl fillNone acc cons := by
  induction l with
  | nil => intro acc; exact ⟨[], by simp, rfl⟩
  | cons x xs ih =>
    intro acc
    simp only [absorb]
    split
    · rcases ih (fillNone acc x) with ⟨cons, hsub, heq⟩
      exact ⟨x :: cons, hsub.cons₂ x, heq⟩
    · rcases ih acc with ⟨cons, hsub, heq⟩
      exact ⟨cons, hsub.cons x, heq⟩

theorem absorb_noop (f : String → String → ℕ) (n1 : String) (l : List (Release κ V))
    (acc : Release κ V) (h : ∀ x ∈ l, f n1 (pyLower x.product_name) < 85) :
    absorb f n1 acc l = (acc, l) := by
  induction l generalizing acc with
  | nil => rfl
  | cons x xs ih =>
    have hx : ¬ 85 ≤ f n1 (pyLower x.product_name) := by
      have := h x (by simp)
      omega
    simp only [absorb, if_neg hx]
    rw [ih acc (fun y hy => h y (by simp [hy]))]

theorem dedup_phase2_ne_nil (f : String → String → ℕ) (r : Release κ V)
    (rest : List (Release κ V)) : dedup_phase2 f (r :: rest) ≠ [] := by
  rw [dedup_phase2]
  simp

/-- Every Phase 2 output keeps the id and name of one of its inputs. -/
theorem dedup_phase2_mem_src (f : String → String → ℕ) :
    ∀ (n : ℕ) (l : List (Release κ V)), l.length ≤ n →
      ∀ o ∈ dedup_phase2 f l, ∃ x ∈ l, o.product_name = x.product_name ∧ o.id = x.id := by
  intro n
  induction n with
  | zero =>
    intro l hl o ho
    rw [List.length_eq_zero.1 (Nat.le_zero.1 hl)] at ho
    simp [dedup_phase2] at ho
  | succ n ih =>
    intro l hl o ho
    cases l with
    | nil => simp [dedup_phase2] at ho
    | cons r rest =>
      rw [dedup_phase2] at ho
      rcases List.mem_cons.1 ho with h1 | h1
      · exact ⟨r, by simp, by rw [h1, absorb_fst_name], by rw [h1, absorb_fst_id]⟩
      · have hlen : (absorb f (pyLower r.product_name) r rest).2.length ≤ n := by
          have := absorb_len f (pyLower r.product_name) r rest
          simp only [List.length_cons] at hl
          omega
        rcases ih _ hlen o h1 with ⟨x, hx, hname, hid⟩
        have hxr : x ∈ rest :=
          (absorb_snd_sublist f (pyLower r.product_name) rest r).mem hx
        exact ⟨x, by simp [hxr], hname, hid⟩

/-- Phase 2 output ids form a sublist of the input ids. -/
theorem dedup_phase2_ids_sublist (f : String → String → ℕ) :
    ∀ (n : ℕ) (l : List (Release κ V)), l.length ≤ n →
      ((dedup_phase2 f l).map (·.id)).Sublist (l.map (·.id)) := by
  intro n
  induction n with
  | zero =>
    intro l hl
    rw [List.length_eq_zero.1 (Nat.le_zero.1 hl)]
    simp [dedup_phase2]
  | succ n ih =>
    intro l hl
    cases l with
    | nil => simp [dedup_phase2]
    | cons r rest =>
      rw [dedup_phase2]
      simp only [List.map_cons]
      rw [absorb_fst_id]
      refine List.Sublist.cons₂ _ ?_
      have hlen : (absorb f (pyLower r.product_name) r rest).2.length ≤ n := by
        have := absorb_len f (pyLower r.product_name) r rest
        simp only [List.length_cons] at hl
        omega
      exact (ih _ hlen).trans
        (List.Sublist.map _ (absorb_snd_sublist f (pyLower r.product_name) rest r))

/-- All surviving pairs of a Phase 2 pass score below the merge threshold. -/
theorem dedup_phase2_pairwise (f : String → String → ℕ) :
    ∀ (n : ℕ) (l : List (Release κ V)), l.length ≤ n →
      (dedup_phase2 f l).Pairwise
        (fun a b => f (pyLower a.product_name) (pyLower b.product_name) < 85) := by
  intro n
  induction n with
  | zero =>
    intro l hl
    rw [List.length_eq_zero.1 (Nat.le_zero.1 hl)]
    simp [dedup_phase2]
  | succ n ih =>
    intro l hl
    cases l with
    | nil => simp [dedup_phase2]
    | cons r rest =>
      rw [dedup_phase2]
      have hlen : (absorb f (pyLower r.product_name) r rest).2.length ≤ n := by
        have := absorb_len f (pyLower r.product_name) r rest
        simp only [List.length_cons] at hl
        omega
      refine List.Pairwise.cons ?_ (ih _ hlen)
      intro o ho
      rcases dedup_phase2_mem_src f n _ hlen o ho with ⟨x, hx, hname, _⟩
      rw [absorb_fst_name, hname]
      exact absorb_snd_kept f (pyLower r.product_name) rest r x hx

/-- A list whose pairs all score below the threshold passes Phase 2
unchanged. -/
theorem dedup_phase2_noop (f : String → String → ℕ) :
    ∀ (n : ℕ) (l : List (Release κ V)), l.length ≤ n →
      l.Pairwise (fun a b => f (pyLower a.product_name) (pyLower b.product_name) < 85) →
      dedup_phase2 f l = l := by
  intro n
  induction n with
  | zero =>
    intro l hl _
    rw [List.length_eq_zero.1 (Nat.le_zero.1 hl)]
    simp [dedup_phase2]
  | succ n ih =>
    intro l hl hp
    cases l with
    | nil => simp [dedup_phase2]
    | cons r rest =>
      rw [dedup_phase2]
      rcases List.pairwise_cons.1 hp with ⟨hr, hrest⟩
      rw [absorb_noop f (pyLower r.product_name) rest r hr]
      simp only [List.length_cons] at hl
      rw [ih rest (by omega) hrest]

/-- Each Phase 2 output record is the null-fill fold of an in-order
subsequence of the input (the survivor followed by the records it consumed). -/
theorem dedup_phase2_spec (f : String → String → ℕ) :
    ∀ (n : ℕ) (l : List (Release κ V)), l.length ≤ n →
      ∀ o ∈ dedup_phase2 f l,
        ∃ hd tl, (hd :: tl).Sublist l ∧ o = List.foldl fillNone hd tl := by
  intro n
  induction n with
  | zero =>
    intro l hl o ho
    rw [List.length_eq_zero.1 (Nat.le_zero.1 hl)] at ho
    simp [dedup_phase2] at ho
  | succ n ih =>
    intro l hl o ho
    cases l with
    | nil => simp [dedup_phase2] at ho
    | cons r rest =>
      rw [dedup_phase2] at ho
      rcases List.mem_cons.1 ho with h1 | h1
      · rcases absorb_fst_fold f (pyLower r.product_name) rest r with ⟨cons, hsub, heq⟩
        exact ⟨r, cons, hsub.cons₂ r, by rw [h1, heq]⟩
      · have hlen : (absorb f (pyLower r.product_name) r rest).2.length ≤ n := by
          have := absorb_len f (pyLower r.product_name) r rest
          simp only [List.length_cons] at hl
          omega
        rcases ih _ hlen o h1 with ⟨hd, tl, hsub, heq⟩
        exact ⟨hd, tl,
          (hsub.trans (absorb_snd_sublist f (pyLower r.product_name) rest r)).cons r, heq⟩

/-! #### Frame lemmas for the heap model: the engine writes only to
addresses it allocated itself. -/

theorem lookup_mem {β : Type} (l : List (String × β)) (k : String) (v : β)
    (h : l.lookup k = some v) : (k, v) ∈ l := by
  induction l with
  | nil => simp [List.lookup] at h
  | cons p ps ih =>
    obtain ⟨k1, v1⟩ := p
    simp only [List.lookup] at h
    cases hbeq : (k == k1) with
    | true =>
      rw [hbeq] at h
      simp only [Option.some.injEq] at h
      exact List.mem_cons.2 (Or.inl (by rw [eq_of_beq hbeq, h]))
    | false =>
      rw [hbeq] at h
      exact List.mem_cons.2 (Or.inr (ih h))

theorem phase1H_frame :
    ∀ (as : List ℕ) (h : List (Release κ V)) (seen : List (String × ℕ)) (L : ℕ),
      L ≤ h.length → (∀ p ∈ seen, L ≤ p.2 ∧ p.2 < h.length) →
      (∀ i, i < L → (phase1H as h seen).1[i]? = h[i]?) ∧
        L ≤ (phase1H as h seen).1.length ∧
        (∀ a ∈ (phase1H as h seen).2, L ≤ a ∧ a < (phase1H as h seen).1.length) := by
  intro as
  induction as with
  | nil =>
    intro h seen L hL hseen
    refine ⟨fun i _ => rfl, hL, ?_⟩
    intro a ha
    simp only [phase1H, List.mem_map] at ha
    rcases ha with ⟨p, hp, hpa⟩
    rw [← hpa]
    exact hseen p hp
  | cons a as ih =>
    intro h seen L hL hseen
    simp only [phase1H]
    cases hlk : seen.lookup (hread h a).id with
    | some a2 =>
      have hmem : ((hread h a).id, a2) ∈ seen := lookup_mem seen _ a2 hlk
      have ha2 := hseen _ hmem
      set h2 := h.set a2 (fillNone (hread h a2) (hread h a)) with hh2
      have hlen2 : h2.length = h.length := by simp [hh2]
      have hframe2 : ∀ i, i < L → h2[i]? = h[i]? := by
        intro i hi
        apply List.getElem?_set_ne
        omega
      have := ih h2 seen L (by omega) (by intro p hp; have := hseen p hp; omega)
      refine ⟨fun i hi => by rw [this.1 i hi, hframe2 i hi], this.2.1, this.2.2⟩
    | none =>
      set h2 := h ++ [hread h a] with hh2
      have hlen2 : h2.length = h.length + 1 := by simp [hh2]
      have hframe2 : ∀ i, i < L → h2[i]? = h[i]? := by
        intro i hi
        exact List.getElem?_append_left (by omega)
      have hseen2 : ∀ p ∈ seen ++ [((hread h a).id, h.length)], L ≤ p.2 ∧ p.2 < h2.length := by
        intro p hp
        rcases List.mem_append.1 hp with h4 | h4
        · have := hseen p h4; omega
        · simp only [List.mem_singleton] at h4
          rw [h4]
          simpa using And.intro hL (by omega)
      have := ih h2 (seen ++ [((hread h a).id, h.length)]) L (by omega) hseen2
      refine ⟨fun i hi => by rw [this.1 i hi, hframe2 i hi], this.2.1, this.2.2⟩

theorem absorbH_frame (f : String → String → ℕ) (n1 : String) (am : ℕ) :
    ∀ (bs : List ℕ) (h : List (Release κ V)),
      (absorbH f n1 am bs h).1.length = h.length ∧
        (∀ i, i ≠ am → (absorbH f n1 am bs h).1[i]? = h[i]?) := by
  intro bs
  induction bs with
  | nil => intro h; exact ⟨rfl, fun _ _ => rfl⟩
  | cons b bs ih =>
    intro h
    simp only [absorbH]
    split
    · set h2 := h.set am (fillNone (hread h am) (hread h b)) with hh2
      have hlen2 : h2.length = h.length := by simp [hh2]
      rcases ih h2 with ⟨hlen3, hframe3⟩
      refine ⟨by omega, ?_⟩
      intro i hi
      rw [hframe3 i hi, hh2, List.getElem?_set_ne (fun hcon => hi hcon.symm)]
    · exact ih h

theorem phase2H_frame (f : String → String → ℕ) :
    ∀ (n : ℕ) (as : List ℕ) (h : List (Release κ V)) (L : ℕ), as.length ≤ n →
      L ≤ h.length →
      (∀ i, i < L → (phase2H f as h).1[i]? = h[i]?) ∧
        h.length ≤ (phase2H f as h).1.length ∧
        (∀ a ∈ (phase2H f as h).2, L ≤ a ∧ a < (phase2H f as h).1.length) := by
  intro n
  induction n with
  | zero =>
    intro as h L hn hL
    rw [List.length_eq_zero.1 (Nat.le_zero.1 hn)]
    have hnil : phase2H f [] h = (h, []) := by rw [phase2H]
    rw [hnil]
    exact ⟨fun _ _ => rfl, le_refl _, by simp⟩
  | succ n ih =>
    intro as h L hn hL
    cases as with
    | nil =>
      have hnil : phase2H f [] h = (h, []) := by rw [phase2H]
      rw [hnil]
      exact ⟨fun _ _ => rfl, le_refl _, by simp⟩
    | cons a as2 =>
      rw [phase2H]
      simp only []
      set r1 := hread h a with hr1
      set h1 := h ++ [r1] with hh1
      have hlen1 : h1.length = h.length + 1 := by simp [hh1]
      set p := absorbH f (pyLower r1.product_name) h.length as2 h1 with hp
      rcases absorbH_frame f (pyLower r1.product_name) h.length as2 h1 with ⟨hplen, hpframe⟩
      rw [← hp] at hplen hpframe
      have hp2len : p.2.length ≤ n := by
        have h6 := absorbH_len f (pyLower r1.product_name) h.length as2 h1
        rw [← hp] at h6
        simp only [List.length_cons] at hn
        omega
      have hq := ih p.2 p.1 L hp2len (by omega)
      refine ⟨?_, ?_, ?_⟩
      · intro i hi
        rw [hq.1 i hi, hpframe i (by omega), hh1, List.getElem?_append_left (by omega)]
      · have := hq.2.1; omega
      · intro b hb
        rcases List.mem_cons.1 hb with h7 | h7
        · subst h7
          constructor
          · omega
          · have := hq.2.1; omega
        · exact hq.2.2 b h7

end DedupLemmas

/-! ### Facts about the normalization pipeline -/

/-- Every month label the normalizer emits is a canonical month name
followed by the target year. -/
theorem normalize_month_core_form (s : List Char) (year : ℕ) (r : String)
    (h : normalize_month_core s year = some r) :
    ∃ m ∈ MONTHS, r = m ++ " " ++ toString year := by
  have hgetD : ∀ n : ℕ, n < 12 → MONTHS.getD n "" ∈ MONTHS := by decide
  unfold normalize_month_core at h
  cases h1 : MONTHS.find? (fun m => containsMonthYear m.toList (toString year).toList s) with
  | some m =>
    rw [h1] at h
    simp only [Option.some.injEq] at h
    exact ⟨m, List.mem_of_find?_eq_some h1, h.symm⟩
  | none =>
    rw [h1] at h
    cases h2 : MONTHS.find? (fun m => ((lowerL m.toList).take 3).isPrefixOf (lowerL s)) with
    | some m =>
      rw [h2] at h
      simp only [Option.some.injEq] at h
      exact ⟨m, List.mem_of_find?_eq_some h2, h.symm⟩
    | none =>
      rw [h2] at h
      cases h3 : findNumericMonth s with
      | some g1 =>
        rw [h3] at h
        by_cases h4 : (0 : ℤ) ≤ (g1 : ℤ) - 1 ∧ ((g1 : ℤ) - 1) < 12
        · simp only [if_pos h4, Option.some.injEq] at h
          refine ⟨MONTHS.getD ((g1 : ℤ) - 1).toNat "", hgetD _ (by omega), h.symm⟩
        · simp only [if_neg h4] at h
          cases h5 : findQDigit s with
          | some q =>
            rw [h5] at h
            by_cases h6 : (0 : ℤ) ≤ ((q : ℤ) - 1) * 3 ∧ ((q : ℤ) - 1) * 3 < 12
            · simp only [if_pos h6, Option.some.injEq] at h
              refine ⟨MONTHS.getD (((q : ℤ) - 1) * 3).toNat "", hgetD _ (by omega), h.symm⟩
            · simp only [if_neg h6] at h
              exact absurd h (by simp)
          | none =>
            rw [h5] at h
            exact absurd h (by simp)
      | none =>
        rw [h3] at h
        cases h5 : findQDigit s with
        | some q =>
          rw [h5] at h
          by_cases h6 : (0 : ℤ) ≤ ((q : ℤ) - 1) * 3 ∧ ((q : ℤ) - 1) * 3 < 12
          · simp only [if_pos h6, Option.some.injEq] at h
            refine ⟨MONTHS.getD (((q : ℤ) - 1) * 3).toNat "", hgetD _ (by omega), h.symm⟩
          · simp only [if_neg h6] at h
            exact absurd h (by simp)
        | none =>
          rw [h5] at h
          exact absurd h (by simp)

theorem normalize_month_form (raw : Option RawVal) (year : ℕ) (r : String)
    (h : normalize_month raw year = some r) :
    ∃ m ∈ MONTHS, r = m ++ " " ++ toString year := by
  match raw with
  | none => simp [normalize_month] at h
  | some v =>
    cases htr : pyTruthy v with
    | false => simp [normalize_month, htr] at h
    | true =>
      rw [normalize_month, htr] at h
      simp only [Bool.true_eq_false, if_false] at h
      exact normalize_month_core_form _ year r h

/-- Characterization of an accepted `normalize_release` output: its id is
`generate_id` of its (resolved) product name — with the default year — and
its month label is `normalize_month` of the raw month field — with the
default year. -/
theorem normalize_release_ok (raw : RawRecord) (rec : NormRecord)
    (h : normalize_release raw = .ok (some rec)) :
    rec.id = generate_id rec.product_name ∧
      rec.release_month = normalize_month (pyOrV raw.release_month raw.month) := by
  by_cases hpn : pyStrip ((pyOrS raw.product_name (pyOrS raw.name (some ""))).getD "") = ""
  · simp [normalize_release, hpn, pure, Except.pure] at h
  · cases hp : parse_proof (pyOrV raw.proof raw.abv) with
    | error e => simp [normalize_release, hpn, hp, bind, Except.bind, pure, Except.pure] at h
    | ok pa =>
      cases hq : parse_price (pyOrV raw.msrp raw.price) with
      | error e =>
        simp [normalize_release, hpn, hp, hq, bind, Except.bind, pure, Except.pure] at h
      | ok price =>
        obtain ⟨rid, rpn, rdist, rtype, rproof, rabv, rage, rmsrp, rbot, rmonth, rdate,
          ryear, rbatch, rfin, rmash, rnotes, rlim, rnew, rimg, rsrc⟩ := rec
        simp only [normalize_release, hpn, hp, hq, bind, Except.bind, pure, Except.pure,
          if_false, Except.ok.injEq, Option.some.injEq, NormRecord.mk.injEq] at h
        obtain ⟨h1, h2, h3, h4, h5, h6, h7, h8, h9, h10, h11, h12, h13, h14, h15, h16,
          h17, h18, h19, h20⟩ := h
        exact ⟨h1.symm.trans (congrArg generate_id h2), h10.symm⟩

theorem str_append_assoc (a b c : String) : a ++ b ++ c = a ++ (b ++ c) :=
  String.append_assoc a b c

/-! ### Claim theorems -/

/-- **C1** (corrected).  Amended claim: for every RawRecord accepted by the
normalization pipeline, the identity emitted by `normalize_release` equals
the first 16 hexadecimal characters of the SHA-256 digest of (the product
name lowercased with every character that is not a lowercase letter or digit
stripped) concatenated with the pipeline's fixed default year 2026 —
*not* with the record's own release year, which `normalize_release` never
passes to `generate_id`; consequently two accepted records with equal
canonicalized names always receive equal identity (in particular two records
with equal canonicalized name and equal release year do). -/
theorem C1_identity_amended :
    (∀ (raw : RawRecord) (rec : NormRecord), normalize_release raw = .ok (some rec) →
        rec.id = (sha256hex (utf8Bytes (canonName rec.product_name ++ "-2026"))).take 16) ∧
    (∀ (raw1 : RawRecord) (rec1 : NormRecord) (raw2 : RawRecord) (rec2 : NormRecord),
        normalize_release raw1 = .ok (some rec1) →
        normalize_release raw2 = .ok (some rec2) →
        canonName rec1.product_name = canonName rec2.product_name →
        rec1.id = rec2.id) := by
  have hstr : ∀ s : String, s ++ "-" ++ toString (2026 : ℤ) = s ++ "-2026" := by
    intro s
    rw [str_append_assoc]
    rfl
  constructor
  · intro raw rec h
    rw [(normalize_release_ok raw rec h).1]
    simp only [generate_id]
    rw [hstr]
  · intro raw1 rec1 raw2 rec2 h1 h2 hcanon
    rw [(normalize_release_ok raw1 rec1 h1).1, (normalize_release_ok raw2 rec2 h2).1]
    simp only [generate_id]
    rw [hcanon]

def c1rawA : RawRecord := { product_name := some "Abc", release_year := some 2025 }

def c1recA : NormRecord :=
  match normalize_release c1rawA with
  | .ok (some r) => r
  | _ => default

def c1rawB : RawRecord := { name := some " Abc!! ", release_year := some 2024 }

def c1recB : NormRecord :=
  match normalize_release c1rawB with
  | .ok (some r) => r
  | _ => default

set_option maxHeartbeats 2000000 in
/-- Witness for C1: a concrete accepted record gets the hash of its
canonical name with the year 2026, and a second record with the same
canonical name but a different `release_year` gets the same identity. -/
theorem C1_identity_amended_witness :
    (c1recA.id = (sha256hex (utf8Bytes (canonName c1recA.product_name ++ "-2026"))).take 16) ∧
      c1recB.id = c1recA.id :=
  ⟨C1_identity_amended.1 c1rawA c1recA rfl,
   C1_identity_amended.2 c1rawB c1recB c1rawA c1recA rfl rfl rfl⟩

set_option maxHeartbeats 2000000 in
/-- Counterexample to C1 as stated: the record `c1rawA` carries release year
2025, but its emitted identity is not the truncated digest of its
canonicalized name concatenated with 2025 (the code hashes with the default
2026 instead). -/
theorem C1_identity_counterexample :
    normalize_release c1rawA = .ok (some c1recA) ∧
      c1recA.release_year = 2025 ∧
      c1recA.id ≠ (sha256hex (utf8Bytes
        (canonName c1recA.product_name ++ "-" ++ toString c1recA.release_year))).take 16 := by
  refine ⟨rfl, rfl, by decide⟩

/-- **C2** (code_bug).  The specification says no field parser ever raises,
but `parse_proof(". proof")` and `parse_price("1.2.3")` reach
`float('.')` / `float('1.2.3')`, which raise `ValueError` — the numeric
regex class `[\d.]+` admits tokens that are not valid numbers.
(`parse_age` and `normalize_month` are total: they convert only all-digit
groups.) -/
theorem C2_parser_totality_violated :
    parse_proof (some (.vStr ". proof")) = .error () ∧
      parse_price (some (.vStr "1.2.3")) = .error () :=
  ⟨rfl, rfl⟩

/-- **C9** (confirmed).  The month label emitted by `normalize_release`,
when non-null, is always a canonical month name followed by 2026, regardless
of the record's own `release_year`: `normalize_month` is invoked without a
year argument, so its default target year 2026 is used for every record. -/
theorem C9_month_always_2026 :
    ∀ (raw : RawRecord) (rec : NormRecord), normalize_release raw = .ok (some rec) →
      rec.release_month = none ∨ ∃ m ∈ MONTHS, rec.release_month = some (m ++ " 2026") := by
  intro raw rec h
  have hm := (normalize_release_ok raw rec h).2
  cases hmm : normalize_month (pyOrV raw.release_month raw.month) with
  | none => exact Or.inl (hm.trans hmm)
  | some r =>
    rcases normalize_month_form _ 2026 r hmm with ⟨m, hmem, hr⟩
    refine Or.inr ⟨m, hmem, ?_⟩
    rw [hm, hmm, hr, str_append_assoc]
    rfl

def c9raw : RawRecord :=
  { product_name := some "Weller Millennium", month := some (.vStr "Jan"),
    release_year := some 1999 }

def c9rec : NormRecord :=
  match normalize_release c9raw with
  | .ok (some r) => r
  | _ => default

/-- Witness for C9: a record whose raw month is "Jan" and whose release year
is 1999 still gets the label "January 2026". -/
theorem C9_month_always_2026_witness :
    (c9rec.release_month = none ∨ ∃ m ∈ MONTHS, c9rec.release_month = some (m ++ " 2026")) ∧
      c9rec.release_month = some "January 2026" :=
  ⟨C9_month_always_2026 c9raw c9rec rfl, rfl⟩

section DedupClaims

variable {κ V : Type}

theorem dedup_phase2_nil (f : String → String → ℕ) :
    dedup_phase2 (κ := κ) (V := V) f [] = [] := by
  rw [dedup_phase2]

theorem dedup_none_eq (rs : List (Release κ V)) :
    deduplicate_releases none rs = dedup_phase1 rs := by
  cases rs with
  | nil => rfl
  | cons a as => simp [deduplicate_releases]

theorem dedup_some_eq (f : String → String → ℕ) (rs : List (Release κ V)) :
    deduplicate_releases (some f) rs = dedup_phase2 f (dedup_phase1 rs) := by
  cases rs with
  | nil => simp [deduplicate_releases, dedup_phase1, dedup_phase2_nil]
  | cons a as => simp [deduplicate_releases]

theorem dedup_phase1_ne_nil (rs : List (Release κ V)) (h : rs ≠ []) :
    dedup_phase1 rs ≠ [] :=
  foldl_updateFirst_ne_nil rs [] (Or.inr h)

end DedupClaims

/-- **C3** (confirmed).  Null-fill invariant of the deduplication engine:
(1) a fold of null-fill merges gives, at every key, the first non-null value
among the merged group in first-seen order (so a non-null accumulator field
is never overwritten); (2) every Phase 1 output is exactly such a fold over
the full id-group of the input, in input order; (3) every Phase 2 output is
such a fold over an in-order subsequence of its input (the survivor followed
by the records it consumed); (4) `deduplicate_releases` is Phase 2 after
Phase 1 (or Phase 1 alone without the fuzzy capability). -/
theorem C3_null_fill_invariant :
    ∀ (κ V : Type),
      (∀ (r : Release κ V) (l : List (Release κ V)) (k : κ),
          (List.foldl fillNone r l).rest k =
            ((r :: l).filterMap (fun x => x.rest k)).head?) ∧
        (∀ (rs : List (Release κ V)) (o : Release κ V), o ∈ dedup_phase1 rs →
          ∃ hd tl, rs.filter (fun x => x.id = o.id) = hd :: tl ∧
            o = List.foldl fillNone hd tl) ∧
        (∀ (fuzz : String → String → ℕ) (rs : List (Release κ V)) (o : Release κ V),
          o ∈ dedup_phase2 fuzz rs →
          ∃ hd tl, (hd :: tl).Sublist rs ∧ o = List.foldl fillNone hd tl) ∧
        (∀ (fuzz : String → String → ℕ) (rs : List (Release κ V)),
          deduplicate_releases (some fuzz) rs = dedup_phase2 fuzz (dedup_phase1 rs) ∧
            deduplicate_releases none rs = dedup_phase1 rs) := by
  intro κ V
  refine ⟨fun r l k => foldl_fillNone_rest l r k, dedup_phase1_spec, ?_, ?_⟩
  · intro fuzz rs o ho
    exact dedup_phase2_spec fuzz rs.length rs (le_refl _) o ho
  · intro fuzz rs
    exact ⟨dedup_some_eq fuzz rs, dedup_none_eq rs⟩

def c3r1 : Release Unit ℕ := { id := "a", product_name := "A", rest := fun _ => none }

def c3r2 : Release Unit ℕ := { id := "a", product_name := "B", rest := fun _ => some 5 }

/-- Witness for C3: two records sharing an id merge into the null-fill fold
of their two-element group. -/
theorem C3_null_fill_invariant_witness :
    ∃ hd tl,
      [c3r1, c3r2].filter (fun x => x.id = (fillNone c3r1 c3r2).id) = hd :: tl ∧
        fillNone c3r1 c3r2 = List.foldl fillNone hd tl := by
  have hmem : fillNone c3r1 c3r2 ∈ dedup_phase1 [c3r1, c3r2] := by
    have h : dedup_phase1 [c3r1, c3r2] = [fillNone c3r1 c3r2] := by
      simp [dedup_phase1, updateFirst, c3r1, c3r2]
    rw [h]
    exact List.mem_singleton_self _
  exact (C3_null_fill_invariant Unit ℕ).2.1 [c3r1, c3r2] (fillNone c3r1 c3r2) hmem

/-- **C4** (confirmed).  `deduplicate_releases` is idempotent: its output has
pairwise-distinct identities (no Phase 1 group of the second pass has more
than one member) and, when the fuzzy capability is present, all surviving
pairs score below the 85 threshold (no Phase 2 merge occurs on the second
pass), so a second application returns the output unchanged. -/
theorem C4_dedup_idempotent :
    ∀ (κ V : Type) (fuzz? : Option (String → String → ℕ)) (rs : List (Release κ V)),
      deduplicate_releases fuzz? (deduplicate_releases fuzz? rs) =
          deduplicate_releases fuzz? rs ∧
        (((deduplicate_releases fuzz? rs).map (·.id)).Nodup) ∧
        (∀ fuzz, fuzz? = some fuzz →
          (deduplicate_releases fuzz? rs).Pairwise
            (fun a b => fuzz (pyLower a.product_name) (pyLower b.product_name) < 85)) := by
  intro κ V fuzz? rs
  cases fuzz? with
  | none =>
    rw [dedup_none_eq, dedup_none_eq]
    have hnd := dedup_phase1_nodup rs
    exact ⟨dedup_phase1_stable _ hnd, hnd, fun fz hfz => by cases hfz⟩
  | some f =>
    rw [dedup_some_eq, dedup_some_eq]
    have hnd : ((dedup_phase2 f (dedup_phase1 rs)).map (·.id)).Nodup :=
      (dedup_phase1_nodup rs).sublist
        (dedup_phase2_ids_sublist f (dedup_phase1 rs).length _ (le_refl _))
    have hpw := dedup_phase2_pairwise f (dedup_phase1 rs).length (dedup_phase1 rs) (le_refl _)
    refine ⟨?_, hnd, fun fz hfz => by obtain rfl := Option.some.inj hfz; exact hpw⟩
    rw [dedup_phase1_stable _ hnd]
    exact dedup_phase2_noop f (dedup_phase2 f (dedup_phase1 rs)).length _ (le_refl _) hpw

def c4score : String → String → ℕ := fun _ _ => 100

def c4r1 : Release Unit ℕ := { id := "a", product_name := "A", rest := fun _ => none }

def c4r2 : Release Unit ℕ := { id := "b", product_name := "B", rest := fun _ => some 7 }

/-- Witness for C4 at a capability that merges everything: a second pass
changes nothing and the survivors are pairwise below threshold. -/
theorem C4_dedup_idempotent_witness :
    deduplicate_releases (some c4score) (deduplicate_releases (some c4score) [c4r1, c4r2]) =
        deduplicate_releases (some c4score) [c4r1, c4r2] ∧
      (deduplicate_releases (some c4score) [c4r1, c4r2]).Pairwise
        (fun a b => c4score (pyLower a.product_name) (pyLower b.product_name) < 85) :=
  ⟨(C4_dedup_idempotent Unit ℕ (some c4score) [c4r1, c4r2]).1,
   (C4_dedup_idempotent Unit ℕ (some c4score) [c4r1, c4r2]).2.2 c4score rfl⟩

/-- **C8** (confirmed).  Without the string-similarity capability (the
`thefuzz` import fails), `deduplicate_releases` does not raise: it skips
Phase 2 entirely and returns exactly the Phase 1 exact-identity-merged
output, unchanged in content and order. -/
theorem C8_no_fuzz_degrades :
    ∀ (κ V : Type) (rs : List (Release κ V)),
      deduplicate_releases none rs = dedup_phase1 rs := by
  intro κ V rs
  exact dedup_none_eq rs

/-- **C10** (confirmed).  Over the explicit heap, `deduplicate_releases`
leaves every input record untouched (the heap prefix holding the inputs is
returned unchanged) and every returned record is a fresh allocation (its
address lies at or beyond the original heap length). -/
theorem take_eq_of_frame {α : Type} (h2 h : List α) (_hlen : h.length ≤ h2.length)
    (hf : ∀ i, i < h.length → h2[i]? = h[i]?) : h2.take h.length = h := by
  apply List.ext_getElem?
  intro i
  by_cases hi : i < h.length
  · simp only [List.getElem?_take]
    rw [if_pos hi]
    exact hf i hi
  · simp only [List.getElem?_take]
    rw [if_neg hi, List.getElem?_eq_none (by omega)]

theorem C10_no_input_mutation :
    ∀ (κ V : Type) (fuzz? : Option (String → String → ℕ)) (rs : List ℕ)
      (h : List (Release κ V)),
      (deduplicate_releasesH fuzz? rs h).1.take h.length = h ∧
        (∀ a ∈ (deduplicate_releasesH fuzz? rs h).2,
          h.length ≤ a ∧ a < (deduplicate_releasesH fuzz? rs h).1.length) := by
  intro κ V fuzz? rs h
  by_cases hrs : rs.isEmpty
  · have h0 : deduplicate_releasesH fuzz? rs h = (h, []) := by
      simp [deduplicate_releasesH, hrs]
    rw [h0]
    exact ⟨List.take_length h, by simp⟩
  · have hp := phase1H_frame rs h [] h.length (le_refl _) (by simp)
    cases fuzz? with
    | none =>
      have h0 : deduplicate_releasesH none rs h = phase1H rs h [] := by
        simp [deduplicate_releasesH, hrs]
      rw [h0]
      exact ⟨take_eq_of_frame _ h hp.2.1 hp.1, hp.2.2⟩
    | some f =>
      have h0 : deduplicate_releasesH (some f) rs h =
          phase2H f (phase1H rs h []).2 (phase1H rs h []).1 := by
        simp [deduplicate_releasesH, hrs]
      rw [h0]
      have hq := phase2H_frame f (phase1H rs h []).2.length (phase1H rs h []).2
        (phase1H rs h []).1 h.length (le_refl _) hp.2.1
      refine ⟨take_eq_of_frame _ h (le_trans hp.2.1 hq.2.1) ?_, hq.2.2⟩
      intro i hi
      rw [hq.1 i hi, hp.1 i hi]

def c10r : Release Unit ℕ := { id := "a", product_name := "A", rest := fun _ => none }

/-- Witness for C10: deduplicating the two-element input `[0, 0]` over the
one-record heap `[c10r]` returns address 1 — a fresh allocation past the
untouched input prefix. -/
theorem C10_no_input_mutation_witness :
    (1 : ℕ) ∈ (deduplicate_releasesH (κ := Unit) (V := ℕ) none [0, 0] [c10r]).2 ∧
      (([c10r] : List (Release Unit ℕ)).length ≤ 1 ∧
        1 < (deduplicate_releasesH (κ := Unit) (V := ℕ) none [0, 0] [c10r]).1.length) := by
  have hmem : (1 : ℕ) ∈ (deduplicate_releasesH (κ := Unit) (V := ℕ) none [0, 0] [c10r]).2 := by
    have h : (deduplicate_releasesH (κ := Unit) (V := ℕ) none [0, 0] [c10r]).2 = [1] := by
      simp [deduplicate_releasesH, phase1H, hread, c10r, defaultRel, List.lookup]
    rw [h]
    exact List.mem_singleton_self _
  exact ⟨hmem, (C10_no_input_mutation Unit ℕ none [0, 0] [c10r]).2 1 hmem⟩

/-! ### Facts about the field parsers -/

theorem parse_proof_some (v : RawVal) (htr : pyTruthy v = true) :
    parse_proof (some v) = parse_proof_core ((pyStrip (pyStr v)).toList) := by
  simp only [parse_proof, htr, Bool.true_eq_false, if_false]

theorem parse_age_some (v : RawVal) (htr : pyTruthy v = true) :
    parse_age (some v) = parse_age_core ((pyStrip (pyStr v)).toList) := by
  simp only [parse_age, htr, Bool.true_eq_false, if_false]

theorem parse_price_some (v : RawVal) (htr : pyTruthy v = true) :
    parse_price (some v) = parse_price_core ((pyStrip (pyStr v)).toList) := by
  simp only [parse_price, htr, Bool.true_eq_false, if_false]

theorem firstNumRun_none (s : List Char) (h : ∀ c ∈ s, isNumDot c = false) :
    firstNumRun s = none := by
  induction s with
  | nil => rfl
  | cons c rest ih =>
    have hc := h c (by simp)
    simp only [firstNumRun, hc, if_false, Bool.false_eq_true]
    exact ih (fun d hd => h d (by simp [hd]))

theorem findProofGroup_none (s : List Char) (h : ∀ c ∈ s, isNumDot c = false) :
    findProofGroup s = none := by
  induction s with
  | nil => rfl
  | cons c rest ih =>
    have hc := h c (by simp)
    have htry : tryProofAt (c :: rest) = none := by
      simp [tryProofAt, List.takeWhile_cons, hc]
    simp only [findProofGroup, htry]
    exact ih (fun d hd => h d (by simp [hd]))

/-- **C5** (confirmed).  The strength parser tries the explicit
"number proof" pattern first: its number becomes the proof and half of it
(at Python's 1-decimal rounding) the ABV; otherwise the first numeric token
n (from the percent/ABV pattern, whose optional suffixes also cover the
bare-number fallback) is treated by the >100 heuristic — proof when
n > 100, an ABV percentage otherwise; the two specification examples hold
at binary-double values; inputs with no numeric characters (and null/empty
inputs) give (null, null). -/
theorem C5_strength_heuristic :
    (∀ (v : RawVal) (g : String) (p : ℚ), pyTruthy v = true →
        findProofGroup ((pyStrip (pyStr v)).toList) = some g → pyFloat g = some p →
        parse_proof (some v) = .ok (some p, some (pyRound1 (p / 2)))) ∧
      (∀ (v : RawVal) (g : String) (n : ℚ), pyTruthy v = true →
        findProofGroup ((pyStrip (pyStr v)).toList) = none →
        firstNumRun ((pyStrip (pyStr v)).toList) = some g → pyFloat g = some n →
        parse_proof (some v) =
          if 100 < n then .ok (some n, some (pyRound1 (n / 2)))
          else .ok (some (pyRound1 (n * 2)), some n)) ∧
      (parse_proof (some (.vStr "112.9 Proof")) =
        .ok (some (nearestDouble (mkRat 1129 10)), some (nearestDouble (mkRat 565 10)))) ∧
      (parse_proof (some (.vStr "63% ABV")) = .ok (some 126, some 63)) ∧
      (∀ v : RawVal, (∀ c ∈ (pyStrip (pyStr v)).toList, isNumDot c = false) →
        parse_proof (some v) = .ok (none, none)) ∧
      (parse_proof none = .ok (none, none)) := by
  refine ⟨?_, ?_, by decide, by decide, ?_, rfl⟩
  · intro v g p htr hfind hfloat
    rw [parse_proof_some v htr]
    simp only [parse_proof_core, hfind, hfloat, qDiv2_eq]
  · intro v g n htr hfind hrun hfloat
    rw [parse_proof_some v htr]
    simp only [parse_proof_core, hfind, hrun, hfloat, qDiv2_eq, qMul2_eq]
  · intro v h
    cases htr : pyTruthy v with
    | false => simp [parse_proof, htr]
    | true =>
      rw [parse_proof_some v htr]
      simp only [parse_proof_core, findProofGroup_none _ h, firstNumRun_none _ h]

/-- Witness for C5: "95.5% abv" has no proof pattern; its number 95.5 is at
most 100, so it is read as an ABV percentage and doubled into the proof. -/
theorem C5_strength_heuristic_witness :
    parse_proof (some (.vStr "95.5% abv")) =
      .ok (some (pyRound1 (nearestDouble (mkRat 955 10) * 2)),
        some (nearestDouble (mkRat 955 10))) := by
  have h := C5_strength_heuristic.2.1 (.vStr "95.5% abv") "95.5" (nearestDouble (mkRat 955 10))
    (by decide) (by decide) (by decide) (by decide)
  rw [h, if_neg (by decide)]

/-- **C6** (corrected).  Amended claim: for an explicit year range the age
parser returns the *second* endpoint — the regex group `(\d+)-(\d+)` is read
left to right, so this is the maximum only for normally-ordered ranges such
as "aged 7-20 years" (→ 20); otherwise it returns N for a single
"<N> year(s)/yr(s)/yo" token; otherwise a bare all-digit input is returned
iff it lies in the 2–50 band; and every other input yields null. -/
theorem C6_age_parser_amended :
    (∀ (v : RawVal) (a b : ℕ), pyTruthy v = true →
        findAgeRange ((pyStrip (pyStr v)).toList) = some (a, b) →
        parse_age (some v) = some b) ∧
      (∀ (v : RawVal) (n : ℕ), pyTruthy v = true →
        findAgeRange ((pyStrip (pyStr v)).toList) = none →
        findAgeSimple ((pyStrip (pyStr v)).toList) = some n →
        parse_age (some v) = some n) ∧
      (∀ v : RawVal, pyTruthy v = true →
        findAgeRange ((pyStrip (pyStr v)).toList) = none →
        findAgeSimple ((pyStrip (pyStr v)).toList) = none →
        ((pyStrip (pyStr v)).toList ≠ [] ∧ (pyStrip (pyStr v)).toList.all isDigitC) →
        parse_age (some v) =
          if 2 ≤ digitsToNat ((pyStrip (pyStr v)).toList) ∧
              digitsToNat ((pyStrip (pyStr v)).toList) ≤ 50 then
            some (digitsToNat ((pyStrip (pyStr v)).toList))
          else none) ∧
      (∀ v : RawVal, pyTruthy v = true →
        findAgeRange ((pyStrip (pyStr v)).toList) = none →
        findAgeSimple ((pyStrip (pyStr v)).toList) = none →
        ¬((pyStrip (pyStr v)).toList ≠ [] ∧ (pyStrip (pyStr v)).toList.all isDigitC) →
        parse_age (some v) = none) ∧
      (parse_age none = none) ∧
      (parse_age (some (.vStr "aged 7-20 years")) = some 20) := by
  refine ⟨?_, ?_, ?_, ?_, rfl, by decide⟩
  · intro v a b htr hrange
    rw [parse_age_some v htr]
    simp only [parse_age_core, hrange]
  · intro v n htr hrange hsimple
    rw [parse_age_some v htr]
    simp only [parse_age_core, hrange, hsimple]
  · intro v htr hrange hsimple hdig
    rw [parse_age_some v htr]
    simp only [parse_age_core, hrange, hsimple, if_pos hdig]
  · intro v htr hrange hsimple hdig
    rw [parse_age_some v htr]
    simp only [parse_age_core, hrange, hsimple, if_neg hdig]

/-- Witness for C6: a normally-ordered range resolves to its second (and
maximal) endpoint. -/
theorem C6_age_parser_amended_witness :
    parse_age (some (.vStr "aged 12-15 yrs")) = some 15 :=
  C6_age_parser_amended.1 (.vStr "aged 12-15 yrs") 12 15 (by decide) (by decide)

/-- Counterexample to C6 as stated: on the inverted range "aged 20-7 years"
the parser returns the second endpoint 7, not the maximum 20. -/
theorem C6_age_parser_counterexample :
    parse_age (some (.vStr "aged 20-7 years")) = some 7 ∧
      parse_age (some (.vStr "aged 20-7 years")) ≠ some (max 20 7) := by
  exact ⟨by decide, by decide⟩

/-- **C7** (corrected).  Amended claim: the price parser returns null for
every input containing a placeholder token (tbd/tba/n-a/pending/unknown,
case-insensitively); otherwise it returns the decimal value of the *first
numeric token* of the comma-stripped text — the dollar sign in the pattern
is optional, so a bare number preceding the first "$<number>" wins; it
returns null when no numeric token exists; the claim's examples
`parse_price("$59.99") = 59.99` and `parse_price("TBD") = null` hold. -/
theorem C7_price_parser_amended :
    (∀ v : RawVal, pyTruthy v = true →
        pricePlaceholder ((pyStrip (pyStr v)).toList) = true →
        parse_price (some v) = .ok none) ∧
      (∀ (v : RawVal) (g : String) (q : ℚ), pyTruthy v = true →
        pricePlaceholder ((pyStrip (pyStr v)).toList) = false →
        firstNumRun (((pyStrip (pyStr v)).toList).filter (fun c => c ≠ ',')) = some g →
        pyFloat g = some q →
        parse_price (some v) = .ok (some q)) ∧
      (∀ v : RawVal, pyTruthy v = true →
        pricePlaceholder ((pyStrip (pyStr v)).toList) = false →
        firstNumRun (((pyStrip (pyStr v)).toList).filter (fun c => c ≠ ',')) = none →
        parse_price (some v) = .ok none) ∧
      (parse_price none = .ok none) ∧
      (parse_price (some (.vStr "$59.99")) = .ok (some (nearestDouble (mkRat 5999 100)))) ∧
      (parse_price (some (.vStr "TBD")) = .ok none) := by
  refine ⟨?_, ?_, ?_, rfl, by decide, by decide⟩
  · intro v htr hph
    rw [parse_price_some v htr]
    simp only [parse_price_core, hph, if_true]
  · intro v g q htr hph hrun hfloat
    rw [parse_price_some v htr]
    simp only [parse_price_core, hph, Bool.false_eq_true, if_false, hrun, hfloat]
  · intro v htr hph hrun
    rw [parse_price_some v htr]
    simp only [parse_price_core, hph, Bool.false_eq_true, if_false, hrun]

/-- Witness for C7: a placeholder input yields null. -/
theorem C7_price_parser_amended_witness :
    parse_price (some (.vStr "price TBA soon")) = .ok none :=
  C7_price_parser_amended.1 (.vStr "price TBA soon") (by decide) (by decide)

/-- Counterexample to C7 as stated: "call 555 then $59.99" contains the
"$<number>" pattern $59.99, but the parser returns 555 — the first numeric
token — because the dollar sign in its pattern is optional. -/
theorem C7_price_parser_counterexample :
    parse_price (some (.vStr "call 555 then $59.99")) = .ok (some 555) ∧
      parse_price (some (.vStr "call 555 then $59.99")) ≠
        .ok (some (nearestDouble (mkRat 5999 100))) := by
  exact ⟨by decide, by decide⟩

end CalendarGoggles
